import Mathlib

/-!
Verification of the kitsune web-technology profiler (github.com/kavinsood/kitsune).

This file gives a shallow embedding, in Lean 4, of the parts of the repository
that the specification's claims are about:

* the detection data model (`Detection`, confidence levels, the `detected` map);
* the implies engine (`runImpliesEngine` in kitsune/kitsune.go);
* the vector matchers and `runAllMatchers` (kitsune/matchers.go);
* the DOM data extraction (`collectDataFromDOM` in kitsune/kitsune.go);
* the error aggregation of `FingerprintURL` (kitsune/kitsune.go);
* the version-template evaluator (internal/profiler);
* the pattern normalizer of the offline pipeline (internal/pipeline).

Go maps are embedded as association lists with explicit lookup/insert
functions; Go regexes are embedded as abstract match functions
`String → Option (List String)` returning the submatch slice (`none` both for
no-match and for a watchdog timeout); Go standard-library helpers
(strings.ToLower, strings.TrimSpace, strings.Split, strings.ReplaceAll) are
embedded as explicit recursive functions over `List Char` with ASCII
semantics, which is the range the fingerprint data exercises.
-/

namespace Kitsune

/-! ## Basic string helpers (models of the Go strings package, ASCII range) -/

/-! ## ASCII lower-casing (model of strings.ToLower on the ASCII range) -/

/-- Characterwise ASCII lower-casing. -/
def lowerChar (c : Char) : Char :=
  match c with
  | 'A' => 'a'
  | 'B' => 'b'
  | 'C' => 'c'
  | 'D' => 'd'
  | 'E' => 'e'
  | 'F' => 'f'
  | 'G' => 'g'
  | 'H' => 'h'
  | 'I' => 'i'
  | 'J' => 'j'
  | 'K' => 'k'
  | 'L' => 'l'
  | 'M' => 'm'
  | 'N' => 'n'
  | 'O' => 'o'
  | 'P' => 'p'
  | 'Q' => 'q'
  | 'R' => 'r'
  | 'S' => 's'
  | 'T' => 't'
  | 'U' => 'u'
  | 'V' => 'v'
  | 'W' => 'w'
  | 'X' => 'x'
  | 'Y' => 'y'
  | 'Z' => 'z'
  | c => c

/-- Model of strings.ToLower restricted to ASCII, characterwise. -/
def lowerStr (s : String) : String :=
  String.mk (s.data.map lowerChar)

/-- Model of strings.TrimSpace on character lists (ASCII whitespace). -/
def trimSpace (s : List Char) : List Char :=
  ((s.dropWhile Char.isWhitespace).reverse.dropWhile Char.isWhitespace).reverse

/-- Model of strings.TrimSpace on strings. -/
def trimStr (s : String) : String :=
  String.mk (trimSpace s.data)

/-- Does `needle` occur as a contiguous substring of `hay`? -/
def occursB (needle : List Char) (hay : List Char) : Bool :=
  match hay with
  | [] => needle.isEmpty
  | _ :: rest => needle.isPrefixOf hay || occursB needle rest

/-! ## Detection data model (kitsune/matchers.go) -/

/-- ConfidenceLevel from kitsune/matchers.go: Low = 0, Medium = 1, High = 2. -/
inductive ConfidenceLevel where
  | low
  | medium
  | high
deriving DecidableEq, Repr

/-- The integer value Go compares with `<`. -/
def ConfidenceLevel.toNat : ConfidenceLevel → Nat
  | .low => 0
  | .medium => 1
  | .high => 2

/-- Detection from kitsune/matchers.go. -/
structure Detection where
  version : String
  detectedBy : String
  matchedPattern : String
  matchedValue : String
  confidence : ConfidenceLevel
deriving DecidableEq, Repr

/-! ## Association-list model of Go maps -/

/-- Lookup in a Go map modelled as an association list. -/
def mapLookup {α : Type} : List (String × α) → String → Option α
  | [], _ => none
  | (k, v) :: rest, key => if k = key then some v else mapLookup rest key

/-- Go map assignment `m[key] = v`: replace in place or append. -/
def mapInsert {α : Type} : List (String × α) → String → α → List (String × α)
  | [], key, v => [(key, v)]
  | (k, w) :: rest, key, v =>
    if k = key then (key, v) :: rest else (k, w) :: mapInsert rest key v

/-- The key set of a Go map. -/
def mapKeys {α : Type} (m : List (String × α)) : List String :=
  m.map Prod.fst

/-- The per-request detected map, `map[string]Detection` in Go. -/
abbrev DMap := List (String × Detection)

/-! ## Fingerprint schema (internal/pipeline/types.go) -/

/-- ParsedPattern from internal/pipeline/types.go. -/
structure ParsedPattern where
  regex : String
  commands : List (String × String)
deriving DecidableEq, Repr

/-- Fingerprint from internal/pipeline/types.go (the strict schema the runtime
engine loads).  Name-indexed Go maps become association lists. -/
structure Fingerprint where
  css : List ParsedPattern := []
  cookies : List (String × ParsedPattern) := []
  js : List (String × ParsedPattern) := []
  headers : List (String × ParsedPattern) := []
  html : List ParsedPattern := []
  script : List ParsedPattern := []
  scriptSrc : List ParsedPattern := []
  meta : List (String × List ParsedPattern) := []
  implies : List String := []
  cats : List Nat := []
  description : String := ""
  website : String := ""
  icon : String := ""
  cpe : String := ""
  url : List ParsedPattern := []
  robots : List ParsedPattern := []
  dom : List ParsedPattern := []
  dns : List (String × ParsedPattern) := []
  certIssuer : List (String × ParsedPattern) := []
deriving DecidableEq, Repr

/-- The loaded fingerprint database, `map[string]*pipeline.Fingerprint` in Go. -/
abbrev Apps := List (String × Fingerprint)

/-! ## Implies engine (kitsune/kitsune.go, runImpliesEngine) -/

/-- The Detection literal the implies engine stores for technology `u` implied
by `techName` (all other fields are Go zero values). -/
def impliedDetection (techName : String) : Detection :=
  { version := "", detectedBy := "implies from: " ++ techName,
    matchedPattern := "", matchedValue := "", confidence := .medium }

/-- The inner loop of runImpliesEngine over `app.Implies`: each implied
technology not yet detected is recorded with Medium confidence and appended to
the queue. -/
def processImplies (techName : String) (implied : List String)
    (queue : List String) (detected : DMap) : List String × DMap :=
  match implied with
  | [] => (queue, detected)
  | u :: rest =>
    match mapLookup detected u with
    | some _ => processImplies techName rest queue detected
    | none =>
      processImplies techName rest (queue ++ [u])
        (mapInsert detected u (impliedDetection techName))

/-- The main loop of runImpliesEngine, with explicit fuel.  Returns `none`
only when the fuel runs out before the queue empties; we prove below that the
fuel chosen by `runImpliesEngineO` always suffices.  The second component of
the result is the final processed set (a list, kept in insertion order). -/
def impliesLoop (apps : Apps) :
    Nat → List String → List String → DMap → Option (DMap × List String)
  | _, [], processed, detected => some (detected, processed)
  | 0, _ :: _, _, _ => none
  | fuel + 1, t :: queue, processed, detected =>
    if t ∈ processed then
      impliesLoop apps fuel queue processed detected
    else
      match mapLookup detected t with
      | none => impliesLoop apps fuel queue (t :: processed) detected
      | some d =>
        if d.confidence.toNat < ConfidenceLevel.high.toNat then
          impliesLoop apps fuel queue (t :: processed) detected
        else
          match mapLookup apps t with
          | none => impliesLoop apps fuel queue (t :: processed) detected
          | some fp =>
            impliesLoop apps fuel (processImplies t fp.implies queue detected).1
              (t :: processed) (processImplies t fp.implies queue detected).2

/-- Total number of implies edges in the database. -/
def sumImplies : Apps → Nat
  | [] => 0
  | p :: rest => p.2.implies.length + sumImplies rest

/-- Fuel that provably suffices for the implies loop. -/
def impliesFuel (apps : Apps) (detected : DMap) : Nat :=
  detected.length + sumImplies apps

/-- runImpliesEngine seeded exactly as in the source: the queue starts as the
keys of the detected map and the processed set starts empty. -/
def runImpliesEngineO (apps : Apps) (detected : DMap) : Option (DMap × List String) :=
  impliesLoop apps (impliesFuel apps detected) (mapKeys detected) [] detected

/-- The detected map after the implies engine has run. -/
def runImpliesEngine (apps : Apps) (detected : DMap) : DMap :=
  match runImpliesEngineO apps detected with
  | some r => r.1
  | none => detected

/-- Implies edges of database entries whose technology has not been processed
(the potential function used for the fuel bound). -/
def unprocessedImplies : Apps → List String → Nat
  | [], _ => 0
  | (n, fp) :: rest, processed =>
    (if n ∈ processed then 0 else fp.implies.length) + unprocessedImplies rest processed

/-- A detection present in the final map but not in the initial one was added by
the implies engine from a High-confidence seed of the initial map. -/
def AddedFromHighSeed (apps : Apps) (initial : DMap) (u : String) (du : Detection) : Prop :=
  du.confidence = ConfidenceLevel.medium ∧
  ∃ t dt fp, mapLookup initial t = some dt ∧ dt.confidence = ConfidenceLevel.high ∧
    mapLookup apps t = some fp ∧ u ∈ fp.implies ∧
    du.detectedBy = "implies from: " ++ t

/-- Invariant of the implies loop relative to the initial detected map. -/
def ImpliesInv (apps : Apps) (initial d : DMap) : Prop :=
  (∀ k v, mapLookup initial k = some v → mapLookup d k = some v) ∧
  (∀ u du, mapLookup d u = some du → mapLookup initial u = none →
    AddedFromHighSeed apps initial u du)

/-! ## The efficient matcher (kitsune/matchers.go, kitsune/kitsune.go) -/

/-- A compiled Go regexp, abstracted by its FindStringSubmatch behaviour under
the watchdog (util.go matchWithTimeout): `none` is no-match or timeout,
`some subs` is the submatch slice with the full match at index 0. -/
abbrev GoRegex := String → Option (List String)

/-- PatternInfo from kitsune/matchers.go; `patternStr` is Pattern.String(). -/
structure PatternInfo where
  pattern : GoRegex
  patternStr : String
  appName : String
  commands : List (String × String)

/-- EfficientMatcher from kitsune/matchers.go. -/
structure EfficientMatcher where
  htmlPatterns : List PatternInfo := []
  scriptSrcPatterns : List PatternInfo := []
  headerPatterns : List (String × List PatternInfo) := []
  cookiePatterns : List (String × List PatternInfo) := []
  metaPatterns : List (String × List PatternInfo) := []
  scriptPatterns : List PatternInfo := []
  jsPatterns : List (String × List PatternInfo) := []
  cssPatterns : List PatternInfo := []
  urlPatterns : List PatternInfo := []
  robotsPatterns : List PatternInfo := []
  domPatterns : List PatternInfo := []
  dnsPatterns : List (String × List PatternInfo) := []
  certIssuerPatterns : List (String × List PatternInfo) := []

/-- The parts of the Kitsune client the matchers read: the built matcher and
the JS property extractor (an abstraction of the fixed jsPropertyExtractor
regex of matchers.go, returning (property path, literal value) pairs). -/
structure KitsuneM where
  matcher : EfficientMatcher
  jsExtract : String → List (String × String)

/-- extractVersion from kitsune/matchers.go: only templates of the shape
`\N` are substituted, from the N-th submatch; everything else yields "".
(strconv.Atoi is modelled by String.toNat?; the fingerprint data never
produces signed indices.) -/
def kExtractVersion (commands : List (String × String)) (submatches : List String) : String :=
  match mapLookup commands "version" with
  | none => ""
  | some versionCmd =>
    if versionCmd = "" ∨ submatches.length ≤ 1 then ""
    else if versionCmd.startsWith "\\" then
      match (versionCmd.drop 1).toNat? with
      | some versionIndex =>
        if versionIndex < submatches.length then submatches.getD versionIndex "" else ""
      | none => ""
    else ""

/-- The Detection record every matcher builds on a successful submatch. -/
def mkDetection (detectedBy : String) (conf : ConfidenceLevel) (pi : PatternInfo)
    (submatches : List String) : Detection :=
  { version := kExtractVersion pi.commands submatches,
    detectedBy := detectedBy,
    matchedPattern := pi.patternStr,
    matchedValue := submatches.headD "",
    confidence := conf }

/-- PageData from kitsune/matchers.go.  The retained goquery document is
abstracted by `findCount`, the number of elements matching a CSS selector
(zero everywhere when the parse failed, i.e. GoQueryDoc is nil). -/
structure PageData where
  scriptSrcs : List String
  metaContent : List (String × List String)
  inlineScripts : List String
  inlineCSS : List String
  visibleText : String
  title : String
  findCount : String → Nat

/-- AnalysisData from kitsune/matchers.go.  `mainHeaders` is the header map of
MainResponse when it is non-nil. -/
structure AnalysisData where
  targetURL : String
  mainHeaders : Option (List (String × List String))
  robotsContent : Option String
  dnsRecords : List (String × List String)
  certIssuer : String
  pageData : Option PageData

/-! ### The vector matchers -/

/-- matchHeaders: per response header, look up the lower-cased name, and for
each candidate pattern record a High detection at the first matching value. -/
def matchHeaders (k : KitsuneM) (headers : List (String × List String))
    (detected : DMap) : DMap :=
  headers.foldl (fun det entry =>
    match mapLookup k.matcher.headerPatterns (lowerStr entry.1) with
    | none => det
    | some patterns =>
      patterns.foldl (fun det pi =>
        match entry.2.findSome? pi.pattern with
        | some submatches =>
          mapInsert det pi.appName
            (mkDetection ("header:" ++ entry.1) ConfidenceLevel.high pi submatches)
        | none => det) det) detected

/-- Simplified model of net/http.ParseSetCookie (standard library, not
repository code): the cookie is the first semicolon-separated segment,
whitespace-trimmed, split at its first `=` into a (trimmed) name and a value;
parsing fails when there is no `=` or the name is empty. -/
def parseSetCookie (raw : String) : Option (String × String) :=
  let seg := trimStr ((raw.splitOn ";").headD "")
  match seg.splitOn "=" with
  | [] => none
  | [_] => none
  | name :: rest =>
    if name = "" then none else some (trimStr name, String.intercalate "=" rest)

/-- The parsedCookies map of matchCookies, built from (name, value) pairs:
names are TrimSpace'd, lower-cased, and inserted with Go map assignment. -/
def parsedCookiesFromPairs (pairs : List (String × String)) : List (String × String) :=
  pairs.foldl (fun m c => mapInsert m (lowerStr (trimStr c.1)) c.2) []

/-- All successfully parsed Set-Cookie pairs of the response headers.
(The repository also checks cookie.Name != "", which parseSetCookie already
guarantees.) -/
def rawCookiePairs (headers : List (String × List String)) : List (String × String) :=
  ((mapLookup headers "Set-Cookie").getD []).filterMap parseSetCookie

/-- The body of matchCookies after cookie parsing: for each parsed cookie,
the first matching pattern of its name records a High detection. -/
def processParsedCookies (k : KitsuneM) (cookies : List (String × String))
    (detected : DMap) : DMap :=
  cookies.foldl (fun det c =>
    match mapLookup k.matcher.cookiePatterns c.1 with
    | none => det
    | some patterns =>
      match patterns.findSome? (fun pi => (pi.pattern c.2).map (fun subs => (pi, subs))) with
      | some pr =>
        mapInsert det pr.1.appName
          (mkDetection ("cookie:" ++ c.1) ConfidenceLevel.high pr.1 pr.2)
      | none => det) detected

/-- matchCookies from kitsune/matchers.go. -/
def matchCookies (k : KitsuneM) (headers : List (String × List String))
    (detected : DMap) : DMap :=
  processParsedCookies k (parsedCookiesFromPairs (rawCookiePairs headers)) detected

/-- matchScriptSrc: each pattern is matched against each script src value,
recording a High detection at the first matching value. -/
def matchScriptSrc (k : KitsuneM) (pageData : PageData) (detected : DMap) : DMap :=
  k.matcher.scriptSrcPatterns.foldl (fun det pi =>
    match pageData.scriptSrcs.findSome? pi.pattern with
    | some subs =>
      mapInsert det pi.appName (mkDetection "scriptSrc" ConfidenceLevel.high pi subs)
    | none => det) detected

/-- matchMeta: per extracted meta name, look up the lower-cased name and match
each candidate against each content value (Medium confidence). -/
def matchMeta (k : KitsuneM) (pageData : PageData) (detected : DMap) : DMap :=
  pageData.metaContent.foldl (fun det entry =>
    match mapLookup k.matcher.metaPatterns (lowerStr entry.1) with
    | none => det
    | some patterns =>
      patterns.foldl (fun det pi =>
        match entry.2.findSome? pi.pattern with
        | some subs =>
          mapInsert det pi.appName
            (mkDetection ("meta:" ++ entry.1) ConfidenceLevel.medium pi subs)
        | none => det) det) detected

/-- matchScript: patterns run against each inline script block only; an
application already present in the detected map is skipped. -/
def matchScript (k : KitsuneM) (pageData : PageData) (detected : DMap) : DMap :=
  k.matcher.scriptPatterns.foldl (fun det pi =>
    match mapLookup det pi.appName with
    | some _ => det
    | none =>
      match pageData.inlineScripts.findSome? pi.pattern with
      | some subs =>
        mapInsert det pi.appName (mkDetection "script" ConfidenceLevel.medium pi subs)
      | none => det) detected

/-- matchHTML: patterns run against the extracted visible text only; an
application already present in the detected map is skipped. -/
def matchHTML (k : KitsuneM) (pageData : PageData) (detected : DMap) : DMap :=
  k.matcher.htmlPatterns.foldl (fun det pi =>
    match mapLookup det pi.appName with
    | some _ => det
    | none =>
      match pi.pattern pageData.visibleText with
      | some subs =>
        mapInsert det pi.appName (mkDetection "html" ConfidenceLevel.low pi subs)
      | none => det) detected

/-- matchJS: scan each inline script with the property extractor; for each
(path, value) pair with non-empty value, the first pattern registered for the
exact path that matches the value records a High detection. -/
def matchJS (k : KitsuneM) (pageData : PageData) (detected : DMap) : DMap :=
  if k.matcher.jsPatterns.isEmpty then detected
  else
    pageData.inlineScripts.foldl (fun det script =>
      (k.jsExtract script).foldl (fun det kv =>
        if kv.2 = "" then det
        else
          match mapLookup k.matcher.jsPatterns kv.1 with
          | none => det
          | some patterns =>
            match patterns.findSome? (fun pi => (pi.pattern kv.2).map (fun subs => (pi, subs))) with
            | some pr =>
              mapInsert det pr.1.appName
                (mkDetection ("js:" ++ kv.1) ConfidenceLevel.high pr.1 pr.2)
            | none => det) det) detected

/-- matchCSS: for each inline style block, each pattern whose application is
not yet detected is matched against the block (Medium confidence). -/
def matchCSS (k : KitsuneM) (pageData : PageData) (detected : DMap) : DMap :=
  pageData.inlineCSS.foldl (fun det cssBlock =>
    k.matcher.cssPatterns.foldl (fun det pi =>
      match mapLookup det pi.appName with
      | some _ => det
      | none =>
        match pi.pattern cssBlock with
        | some subs =>
          mapInsert det pi.appName (mkDetection "css" ConfidenceLevel.medium pi subs)
        | none => det) det) detected

/-- matchURL: each pattern is matched against the target URL (Medium). -/
def matchURL (k : KitsuneM) (data : AnalysisData) (detected : DMap) : DMap :=
  k.matcher.urlPatterns.foldl (fun det pi =>
    match pi.pattern data.targetURL with
    | some subs =>
      mapInsert det pi.appName (mkDetection "url" ConfidenceLevel.medium pi subs)
    | none => det) detected

/-- matchRobots: nothing when robots content is absent; otherwise each pattern
is matched against the robots content (Medium). -/
def matchRobots (k : KitsuneM) (data : AnalysisData) (detected : DMap) : DMap :=
  match data.robotsContent with
  | none => detected
  | some content =>
    k.matcher.robotsPatterns.foldl (fun det pi =>
      match pi.pattern content with
      | some subs =>
        mapInsert det pi.appName (mkDetection "robots" ConfidenceLevel.medium pi subs)
      | none => det) detected

/-- matchDOM: the stored pattern string is a CSS selector; a Low detection is
recorded when the document contains at least one matching element. -/
def matchDOM (k : KitsuneM) (data : AnalysisData) (detected : DMap) : DMap :=
  match data.pageData with
  | none => detected
  | some pd =>
    k.matcher.domPatterns.foldl (fun det pi =>
      if 0 < pd.findCount pi.patternStr then
        mapInsert det pi.appName
          { version := "", detectedBy := "dom", matchedPattern := pi.patternStr,
            matchedValue := "CSS selector matched", confidence := ConfidenceLevel.low }
      else det) detected

/-- matchDNS: per record type registered in the matcher, each pattern is
matched against each record value of that type (High), stopping at the first
matching value. -/
def matchDNS (k : KitsuneM) (data : AnalysisData) (detected : DMap) : DMap :=
  k.matcher.dnsPatterns.foldl (fun det entry =>
    match mapLookup data.dnsRecords entry.1 with
    | none => det
    | some records =>
      entry.2.foldl (fun det pi =>
        match records.findSome? pi.pattern with
        | some subs =>
          mapInsert det pi.appName
            (mkDetection ("dns:" ++ entry.1) ConfidenceLevel.high pi subs)
        | none => det) det) detected

/-- matchCertIssuer: nothing when no issuer was cached; otherwise every
pattern of every key is matched against the issuer string (High). -/
def matchCertIssuer (k : KitsuneM) (data : AnalysisData) (detected : DMap) : DMap :=
  if data.certIssuer = "" then detected
  else
    k.matcher.certIssuerPatterns.foldl (fun det entry =>
      entry.2.foldl (fun det pi =>
        match pi.pattern data.certIssuer with
        | some subs =>
          mapInsert det pi.appName (mkDetection "certIssuer" ConfidenceLevel.high pi subs)
        | none => det) det) detected

/-- runAllMatchers from kitsune/matchers.go, in the fixed source order:
URL, robots, DNS, certIssuer, then headers and cookies when the main response
exists, then scriptSrc, meta, script, HTML, JS, CSS, DOM when page data
exists. -/
def runAllMatchers (k : KitsuneM) (data : AnalysisData) (detected : DMap) : DMap :=
  let d1 := matchURL k data detected
  let d2 := matchRobots k data d1
  let d3 := matchDNS k data d2
  let d4 := matchCertIssuer k data d3
  let d5 := match data.mainHeaders with
    | some headers => matchCookies k headers (matchHeaders k headers d4)
    | none => d4
  match data.pageData with
  | some pd =>
    matchDOM k data (matchCSS k pd (matchJS k pd (matchHTML k pd (matchScript k pd
      (matchMeta k pd (matchScriptSrc k pd d5))))))
  | none => d5

/-! ### Write sequences: the detections an unguarded matcher records, in
order, independently of the incoming detected map -/

/-- Apply a sequence of (app, detection) writes with Go map assignment. -/
def applyWrites (ws : List (String × Detection)) (d : DMap) : DMap :=
  ws.foldl (fun det p => mapInsert det p.1 p.2) d

/-- The last write recorded for an application in a write sequence. -/
def lastWrite (ws : List (String × Detection)) (a : String) : Option Detection :=
  (ws.reverse.find? (fun p => p.1 == a)).map Prod.snd

def headersWrites (k : KitsuneM) (headers : List (String × List String)) :
    List (String × Detection) :=
  headers.flatMap (fun entry =>
    match mapLookup k.matcher.headerPatterns (lowerStr entry.1) with
    | none => []
    | some patterns =>
      patterns.filterMap (fun pi =>
        (entry.2.findSome? pi.pattern).map (fun subs =>
          (pi.appName, mkDetection ("header:" ++ entry.1) ConfidenceLevel.high pi subs))))

def cookiesWrites (k : KitsuneM) (cookies : List (String × String)) :
    List (String × Detection) :=
  cookies.filterMap (fun c =>
    match mapLookup k.matcher.cookiePatterns c.1 with
    | none => none
    | some patterns =>
      (patterns.findSome? (fun pi => (pi.pattern c.2).map (fun subs => (pi, subs)))).map
        (fun pr => (pr.1.appName, mkDetection ("cookie:" ++ c.1) ConfidenceLevel.high pr.1 pr.2)))

def scriptSrcWrites (k : KitsuneM) (pageData : PageData) : List (String × Detection) :=
  k.matcher.scriptSrcPatterns.filterMap (fun pi =>
    (pageData.scriptSrcs.findSome? pi.pattern).map (fun subs =>
      (pi.appName, mkDetection "scriptSrc" ConfidenceLevel.high pi subs)))

def metaWrites (k : KitsuneM) (pageData : PageData) : List (String × Detection) :=
  pageData.metaContent.flatMap (fun entry =>
    match mapLookup k.matcher.metaPatterns (lowerStr entry.1) with
    | none => []
    | some patterns =>
      patterns.filterMap (fun pi =>
        (entry.2.findSome? pi.pattern).map (fun subs =>
          (pi.appName, mkDetection ("meta:" ++ entry.1) ConfidenceLevel.medium pi subs))))

def jsWrites (k : KitsuneM) (pageData : PageData) : List (String × Detection) :=
  if k.matcher.jsPatterns.isEmpty then []
  else
    pageData.inlineScripts.flatMap (fun script =>
      (k.jsExtract script).filterMap (fun kv =>
        if kv.2 = "" then none
        else
          match mapLookup k.matcher.jsPatterns kv.1 with
          | none => none
          | some patterns =>
            (patterns.findSome? (fun pi => (pi.pattern kv.2).map (fun subs => (pi, subs)))).map
              (fun pr => (pr.1.appName, mkDetection ("js:" ++ kv.1) ConfidenceLevel.high pr.1 pr.2))))

def urlWrites (k : KitsuneM) (data : AnalysisData) : List (String × Detection) :=
  k.matcher.urlPatterns.filterMap (fun pi =>
    (pi.pattern data.targetURL).map (fun subs =>
      (pi.appName, mkDetection "url" ConfidenceLevel.medium pi subs)))

def robotsWrites (k : KitsuneM) (data : AnalysisData) : List (String × Detection) :=
  match data.robotsContent with
  | none => []
  | some content =>
    k.matcher.robotsPatterns.filterMap (fun pi =>
      (pi.pattern content).map (fun subs =>
        (pi.appName, mkDetection "robots" ConfidenceLevel.medium pi subs)))

def domWrites (k : KitsuneM) (data : AnalysisData) : List (String × Detection) :=
  match data.pageData with
  | none => []
  | some pd =>
    k.matcher.domPatterns.filterMap (fun pi =>
      if 0 < pd.findCount pi.patternStr then
        some (pi.appName,
          { version := "", detectedBy := "dom", matchedPattern := pi.patternStr,
            matchedValue := "CSS selector matched", confidence := ConfidenceLevel.low })
      else none)

def dnsWrites (k : KitsuneM) (data : AnalysisData) : List (String × Detection) :=
  k.matcher.dnsPatterns.flatMap (fun entry =>
    match mapLookup data.dnsRecords entry.1 with
    | none => []
    | some records =>
      entry.2.filterMap (fun pi =>
        (records.findSome? pi.pattern).map (fun subs =>
          (pi.appName, mkDetection ("dns:" ++ entry.1) ConfidenceLevel.high pi subs))))

def certIssuerWrites (k : KitsuneM) (data : AnalysisData) : List (String × Detection) :=
  if data.certIssuer = "" then []
  else
    k.matcher.certIssuerPatterns.flatMap (fun entry =>
      entry.2.filterMap (fun pi =>
        (pi.pattern data.certIssuer).map (fun subs =>
          (pi.appName, mkDetection "certIssuer" ConfidenceLevel.high pi subs))))

/-! ## DOM model and collectDataFromDOM (kitsune/kitsune.go) -/

/-- A parsed HTML node as goquery exposes it: elements (with lower-cased tag
names, as the html parser produces), text nodes and comment nodes. -/
inductive HNode where
  | element (tag : String) (attrs : List (String × String)) (children : List HNode)
  | text (s : String)
  | comment (s : String)

/-- Attribute lookup on an element (goquery Selection.Attr). -/
def attrOf (attrs : List (String × String)) (name : String) : Option String :=
  mapLookup attrs name

/-- goquery Selection.Text(): concatenation of all descendant text nodes.
Comment nodes contribute nothing. -/
def textContentList : List HNode → String
  | [] => ""
  | .element _ _ children :: rest => textContentList children ++ textContentList rest
  | .text s :: rest => s ++ textContentList rest
  | .comment _ :: rest => textContentList rest

/-- src values of every `<script src=...>` element, in document order. -/
def scriptSrcsOf : List HNode → List String
  | [] => []
  | .element tag attrs children :: rest =>
    (if tag = "script" then
      match attrOf attrs "src" with
      | some src => [src]
      | none => []
     else []) ++ scriptSrcsOf children ++ scriptSrcsOf rest
  | _ :: rest => scriptSrcsOf rest

/-- Text content of every `<script>` element without a src attribute, in
document order (goquery Find of script without src, then Text()). -/
def inlineScriptsOf : List HNode → List String
  | [] => []
  | .element tag attrs children :: rest =>
    (if tag = "script" ∧ attrOf attrs "src" = none then [textContentList children]
     else []) ++ inlineScriptsOf children ++ inlineScriptsOf rest
  | _ :: rest => inlineScriptsOf rest

/-- Text content of every `<style>` element, in document order. -/
def inlineCSSOf : List HNode → List String
  | [] => []
  | .element tag _ children :: rest =>
    (if tag = "style" then [textContentList children] else []) ++
      inlineCSSOf children ++ inlineCSSOf rest
  | _ :: rest => inlineCSSOf rest

/-- The meta name, checked case-sensitively as the source does: "name", then
"Name", then "NAME". -/
def metaNameOf (attrs : List (String × String)) : Option String :=
  match attrOf attrs "name" with
  | some n => some n
  | none =>
    match attrOf attrs "Name" with
    | some n => some n
    | none => attrOf attrs "NAME"

/-- The meta content attribute: "content", then "Content". -/
def metaContentAttr (attrs : List (String × String)) : Option String :=
  match attrOf attrs "content" with
  | some c => some c
  | none => attrOf attrs "Content"

/-- (name, content) of every `<meta>` element carrying both, in document
order. -/
def metaPairsOf : List HNode → List (String × String)
  | [] => []
  | .element tag attrs children :: rest =>
    (if tag = "meta" then
      match metaNameOf attrs, metaContentAttr attrs with
      | some name, some content => [(name, content)]
      | _, _ => []
     else []) ++ metaPairsOf children ++ metaPairsOf rest
  | _ :: rest => metaPairsOf rest

/-- Go `m[k] = append(m[k], x)` on a map of lists. -/
def mapAppend {α : Type} : List (String × List α) → String → α → List (String × List α)
  | [], k, x => [(k, [x])]
  | (k0, l) :: rest, k, x =>
    if k0 = k then (k0, l ++ [x]) :: rest else (k0, l) :: mapAppend rest k x

/-- The MetaContent map: contents accumulated per name (not lower-cased here;
matchMeta lower-cases at lookup time). -/
def metaContentOf (doc : List HNode) : List (String × List String) :=
  (metaPairsOf doc).foldl (fun m p => mapAppend m p.1 p.2) []

/-- Text of every `<title>` element, in document order. -/
def titlesOf : List HNode → List String
  | [] => []
  | .element tag _ children :: rest =>
    (if tag = "title" then [textContentList children] else []) ++
      titlesOf children ++ titlesOf rest
  | _ :: rest => titlesOf rest

/-- doc.Find("title").First().Text(); empty when there is no title. -/
def titleOf (doc : List HNode) : String :=
  (titlesOf doc).headD ""

/-- Concatenation of the direct text-node children of a node list. -/
def directText : List HNode → String
  | [] => ""
  | .text s :: rest => s ++ directText rest
  | _ :: rest => directText rest

/-- Direct text of every `<body>` element, in document order. -/
def bodyTextsOf : List HNode → List String
  | [] => []
  | .element tag _ children :: rest =>
    (if tag = "body" then [directText children] else []) ++
      bodyTextsOf children ++ bodyTextsOf rest
  | _ :: rest => bodyTextsOf rest

/-- VisibleText: the concatenated direct text children of all body elements. -/
def visibleTextOf (doc : List HNode) : String :=
  String.join (bodyTextsOf doc)

/-- collectDataFromDOM from kitsune/kitsune.go over the parsed document.
`findCount` abstracts the retained goquery document's selector queries; a
parse failure corresponds to the empty document with findCount zero. -/
def collectDataFromDOM (doc : List HNode) (findCount : String → Nat) : PageData :=
  { scriptSrcs := scriptSrcsOf doc
    metaContent := metaContentOf doc
    inlineScripts := inlineScriptsOf doc
    inlineCSS := inlineCSSOf doc
    visibleText := visibleTextOf doc
    title := titleOf doc
    findCount := findCount }

/-- Remove every comment node from a document. -/
def removeComments : List HNode → List HNode
  | [] => []
  | .element tag attrs children :: rest =>
    .element tag attrs (removeComments children) :: removeComments rest
  | .text s :: rest => .text s :: removeComments rest
  | .comment _ :: rest => removeComments rest

/-- Empty the children of every element whose tag is in `tags`. -/
def clearTags (tags : List String) : List HNode → List HNode
  | [] => []
  | .element tag attrs children :: rest =>
    if tag ∈ tags then .element tag attrs [] :: clearTags tags rest
    else .element tag attrs (clearTags tags children) :: clearTags tags rest
  | n :: rest => n :: clearTags tags rest

/-- Does some element with the given tag occur anywhere in the trees? -/
def containsTag (tag : String) : List HNode → Bool
  | [] => false
  | .element t _ children :: rest =>
    decide (t = tag) || containsTag tag children || containsTag tag rest
  | _ :: rest => containsTag tag rest

/-- No `<body>` element hides inside a `<script>` or `<style>` element
(true of every document the html parser produces). -/
def scriptStyleBodyFree : List HNode → Bool
  | [] => true
  | .element tag _ children :: rest =>
    (if tag = "script" ∨ tag = "style" then !(containsTag "body" children) else true)
      && scriptStyleBodyFree children && scriptStyleBodyFree rest
  | _ :: rest => scriptStyleBodyFree rest

/-- `IsInlineScriptText doc s` holds when `s` is the text content of some
`<script>` element without a src attribute occurring anywhere in `doc`. -/
inductive IsInlineScriptText : List HNode → String → Prop where
  | here (tag : String) (attrs : List (String × String)) (children rest : List HNode) :
      tag = "script" → attrOf attrs "src" = none →
      IsInlineScriptText (HNode.element tag attrs children :: rest)
        (textContentList children)
  | inChildren (tag : String) (attrs : List (String × String))
      (children rest : List HNode) (s : String) :
      IsInlineScriptText children s →
      IsInlineScriptText (HNode.element tag attrs children :: rest) s
  | inRest (n : HNode) (rest : List HNode) (s : String) :
      IsInlineScriptText rest s → IsInlineScriptText (n :: rest) s

/-! ## Matcher builder (kitsune/kitsune.go, BuildEfficientMatcher) -/

/-- One flat-vector loop of BuildEfficientMatcher: compile "(?i)" + regex and
append the PatternInfo; a pattern that fails to compile is dropped.
`compile` abstracts regexp.Compile. -/
def buildFlat (compile : String → Option GoRegex) (appName : String)
    (pats : List ParsedPattern) (acc : List PatternInfo) : List PatternInfo :=
  pats.foldl (fun acc pat =>
    match compile ("(?i)" ++ pat.regex) with
    | some re =>
      acc ++ [{ pattern := re, patternStr := "(?i)" ++ pat.regex,
                appName := appName, commands := pat.commands }]
    | none => acc) acc

/-- One name-indexed loop of BuildEfficientMatcher; `keyf` is the key
transformation applied before insertion (strings.ToLower for headers and
cookies, the identity for js, dns and certIssuer). -/
def buildNamed (compile : String → Option GoRegex) (appName : String)
    (keyf : String → String) (entries : List (String × ParsedPattern))
    (acc : List (String × List PatternInfo)) : List (String × List PatternInfo) :=
  entries.foldl (fun acc e =>
    match compile ("(?i)" ++ e.2.regex) with
    | some re =>
      mapAppend acc (keyf e.1)
        { pattern := re, patternStr := "(?i)" ++ e.2.regex,
          appName := appName, commands := e.2.commands }
    | none => acc) acc

/-- The meta loop of BuildEfficientMatcher: the key is lower-cased and each
pattern of its list is compiled and appended. -/
def buildMeta (compile : String → Option GoRegex) (appName : String)
    (entries : List (String × List ParsedPattern))
    (acc : List (String × List PatternInfo)) : List (String × List PatternInfo) :=
  entries.foldl (fun acc e =>
    e.2.foldl (fun acc pat =>
      match compile ("(?i)" ++ pat.regex) with
      | some re =>
        mapAppend acc (lowerStr e.1)
          { pattern := re, patternStr := "(?i)" ++ pat.regex,
            appName := appName, commands := pat.commands }
      | none => acc) acc) acc

/-- The DOM selector denylist of BuildEfficientMatcher. -/
def domTagDenylist : List String :=
  ["a", "body", "div", "span", "p", "script", "style",
   "link", "head", "title", "footer", "header", "main"]

/-- strings.ContainsAny(s, ".#["). -/
def containsSpecificity (s : String) : Bool :=
  s.data.any (fun c => c = '.' || c = '#' || c = '[')

/-- The DOM loop of BuildEfficientMatcher with its two selector quality gates
(the selector is compiled as-is, without the (?i) flag). -/
def buildDOM (compile : String → Option GoRegex) (appName : String)
    (pats : List ParsedPattern) (acc : List PatternInfo) : List PatternInfo :=
  pats.foldl (fun acc pat =>
    if domTagDenylist.contains pat.regex then acc
    else if !containsSpecificity pat.regex then acc
    else
      match compile pat.regex with
      | some re =>
        acc ++ [{ pattern := re, patternStr := pat.regex,
                  appName := appName, commands := pat.commands }]
      | none => acc) acc

/-- BuildEfficientMatcher from kitsune/kitsune.go. -/
def buildEfficientMatcher (compile : String → Option GoRegex) (apps : Apps) :
    EfficientMatcher :=
  apps.foldl (fun m e =>
    { htmlPatterns := buildFlat compile e.1 e.2.html m.htmlPatterns
      scriptSrcPatterns := buildFlat compile e.1 e.2.scriptSrc m.scriptSrcPatterns
      scriptPatterns := buildFlat compile e.1 e.2.script m.scriptPatterns
      cssPatterns := buildFlat compile e.1 e.2.css m.cssPatterns
      cookiePatterns := buildNamed compile e.1 lowerStr e.2.cookies m.cookiePatterns
      headerPatterns := buildNamed compile e.1 lowerStr e.2.headers m.headerPatterns
      metaPatterns := buildMeta compile e.1 e.2.meta m.metaPatterns
      jsPatterns := buildNamed compile e.1 (fun s => s) e.2.js m.jsPatterns
      urlPatterns := buildFlat compile e.1 e.2.url m.urlPatterns
      robotsPatterns := buildFlat compile e.1 e.2.robots m.robotsPatterns
      domPatterns := buildDOM compile e.1 e.2.dom m.domPatterns
      dnsPatterns := buildNamed compile e.1 (fun s => s) e.2.dns m.dnsPatterns
      certIssuerPatterns :=
        buildNamed compile e.1 (fun s => s) e.2.certIssuer m.certIssuerPatterns })
    {}

/-! ## FingerprintURL error aggregation (kitsune/kitsune.go) -/

/-- AnalysisError from kitsune/kitsune.go; each field is the message of the
corresponding fetch task's error, when it failed. -/
structure AnalysisErrorM where
  mainPageErr : Option String
  robotsErr : Option String
  dnsErr : Option String
deriving DecidableEq, Repr

/-- IsFatal: the analysis is fatal iff the main page fetch or DNS failed. -/
def AnalysisErrorM.isFatal (e : AnalysisErrorM) : Bool :=
  e.mainPageErr.isSome || e.dnsErr.isSome

/-- Model of strings.Join. -/
def joinSep (sep : String) : List String → String
  | [] => ""
  | [x] => x
  | x :: rest => x ++ sep ++ joinSep sep rest

/-- Error(): the sub-errors in main, dns, robots order joined by "; ". -/
def AnalysisErrorM.message (e : AnalysisErrorM) : String :=
  let errs :=
    (match e.mainPageErr with
     | some m => ["main page fetch failed: " ++ m]
     | none => []) ++
    (match e.dnsErr with
     | some m => ["dns lookup failed: " ++ m]
     | none => []) ++
    (match e.robotsErr with
     | some m => ["robots.txt fetch failed: " ++ m]
     | none => [])
  if errs.isEmpty then "" else "analysis failed: " ++ joinSep "; " errs

/-- The decision logic of FingerprintURL after the concurrent gathering
stage, given the per-task error outcomes: fatal errors abort with no
detections; otherwise matching and the implies engine run, and a robots
failure is still returned alongside the detected map. -/
def fingerprintURL (k : KitsuneM) (apps : Apps) (data : AnalysisData)
    (errs : AnalysisErrorM) : Option DMap × Option AnalysisErrorM :=
  if errs.isFatal then (none, some errs)
  else
    let detected := runImpliesEngine apps (runAllMatchers k data [])
    if errs.robotsErr.isSome then (some detected, some errs)
    else (some detected, none)

/-- Two name-indexed lists that agree up to the letter case of their names
(and exactly on their values). -/
def KeysCaseEq {α : Type} (l₁ l₂ : List (String × α)) : Prop :=
  List.Forall₂ (fun p q => lowerStr p.1 = lowerStr q.1 ∧ p.2 = q.2) l₁ l₂

/-! ## Version-template evaluator (internal/profiler) -/

/-- Model of strings.ReplaceAll (leftmost, non-overlapping) as a structural
scan: `skip` counts characters of a just-matched pattern still to consume. -/
def replaceAllAux (pat repl : List Char) : List Char → Nat → List Char
  | [], _ => []
  | _ :: rest, skip + 1 => replaceAllAux pat repl rest skip
  | c :: rest, 0 =>
    if pat ≠ [] ∧ pat.isPrefixOf (c :: rest) then
      repl ++ replaceAllAux pat repl rest (pat.length - 1)
    else c :: replaceAllAux pat repl rest 0

/-- Model of strings.ReplaceAll. -/
def replaceAll (pat repl s : List Char) : List Char :=
  replaceAllAux pat repl s 0

/-- The `\N` placeholder used by the version substitution loop. -/
def placeholderOf (n : Nat) : List Char :=
  '\\' :: Nat.toDigits 10 n

/-- One step of the substitution loop of profiler extractVersion: for the
pair (i, capture), replace every `\(i+1)` by the capture. -/
def substStep (acc : List Char) (p : Nat × List Char) : List Char :=
  replaceAll (placeholderOf (p.1 + 1)) p.2 acc

/-- The substitution loop of profiler extractVersion over `submatches[1:]`. -/
def substPlaceholders (captures : List (List Char)) (template : List Char) :
    List Char :=
  captures.enum.foldl substStep template

/-- Model of strings.Split for a one-character separator. -/
def goSplit (sep : Char) : List Char → List (List Char)
  | [] => [[]]
  | c :: rest =>
    if c = sep then [] :: goSplit sep rest
    else
      match goSplit sep rest with
      | [] => [[c]]
      | p :: ps => (c :: p) :: ps

/-- evaluateVersionExpression from internal/profiler (the ternary handler);
`none` models the Go error returns.  Note the selection inside the ternary
branches on trueFalseParts[0] — the part between `?` and `:` — not on the
condition before the `?`. -/
def evaluateVersionExpression (expression : List Char)
    (submatches : List (List Char)) : Option (List Char) :=
  if '?' ∈ expression then
    match goSplit '?' expression with
    | [_, second] =>
      match goSplit ':' second with
      | [a, b] =>
        if a ≠ [] then (if submatches.isEmpty then some b else some a)
        else if b = [] then (if submatches.isEmpty then some [] else some a)
        else some b
      | _ => none
    | _ => none
  else some expression

/-- extractVersion of the profiler's ParsedPattern: empty on no submatches,
otherwise substitute `\N` placeholders from `submatches[1:]`, evaluate any
ternary, and trim surrounding whitespace. -/
def pExtractVersion (pversion : List Char) (submatches : List (List Char)) :
    Option (List Char) :=
  if submatches.isEmpty then some []
  else
    match evaluateVersionExpression (substPlaceholders submatches.tail pversion)
        submatches.tail with
    | none => none
    | some r => some (trimSpace r)

/-! ## Normalizer (internal/pipeline part_005): DSL parsing, AST cleaning,
quality gates -/

/-- Shape of regexp/syntax.Regexp: a leaf operator carrying its payload, a
capture group (OpCapture) with its subexpressions, or any other operator node
with subexpressions. -/
inductive Ast where
  | leaf (op : String) (payload : List Char)
  | capture (cap : Nat) (cname : List Char) (sub : List Ast)
  | node (op : String) (sub : List Ast)

/-- The transform of cleanWappalyzerPatternAST, in list form: transform every
subexpression first, then replace a capture node that has at least one
subexpression by its first (transformed) subexpression. -/
def transformL : List Ast → List Ast
  | [] => []
  | .leaf op p :: rest => .leaf op p :: transformL rest
  | .capture cap cname sub :: rest =>
    (match transformL sub with
     | [] => .capture cap cname []
     | s :: _ => s) :: transformL rest
  | .node op sub :: rest => .node op (transformL sub) :: transformL rest

def transform (t : Ast) : Ast := (transformL [t]).headD t

/-- Does a capturing group occur anywhere in the trees? -/
def hasCaptureL : List Ast → Bool
  | [] => false
  | .leaf _ _ :: rest => hasCaptureL rest
  | .capture _ _ _ :: _ => true
  | .node _ sub :: rest => hasCaptureL sub || hasCaptureL rest

def hasCapture (t : Ast) : Bool := hasCaptureL [t]

/-- Parser invariant: every capture node carries at least one subexpression
(regexp/syntax always parses a group with a body). -/
def capNonemptyL : List Ast → Bool
  | [] => true
  | .leaf _ _ :: rest => capNonemptyL rest
  | .capture _ _ sub :: rest =>
    !sub.isEmpty && capNonemptyL sub && capNonemptyL rest
  | .node _ sub :: rest => capNonemptyL sub && capNonemptyL rest

def capNonempty (t : Ast) : Bool := capNonemptyL [t]

/-- strings.Index-based truncation: raw[:Index(raw, marker)] when the marker
occurs, raw unchanged otherwise. -/
def truncBeforeL (marker : List Char) : List Char → List Char
  | [] => []
  | c :: rest =>
    if marker.isPrefixOf (c :: rest) then []
    else c :: truncBeforeL marker rest

def isDigit19 (c : Char) : Bool := decide ('1' ≤ c ∧ c ≤ '9')

def isDigit09 (c : Char) : Bool := decide ('0' ≤ c ∧ c ≤ '9')

/-! removeBackrefs models backrefRe.ReplaceAllString(raw, ""): delete every
occurrence of a backslash followed by a digit 1-9 and any further digits,
scanning left to right over non-overlapping matches; rbDrop consumes the
digit run of a match. -/

mutual

def removeBackrefs : List Char → List Char
  | [] => []
  | ['\\'] => ['\\']
  | '\\' :: c :: rest =>
    if isDigit19 c then rbDrop rest
    else '\\' :: removeBackrefs (c :: rest)
  | c :: rest => c :: removeBackrefs rest
termination_by l => (l.length, 0)

def rbDrop : List Char → List Char
  | [] => []
  | c :: rest => if isDigit09 c then rbDrop rest else removeBackrefs (c :: rest)
termination_by l => (l.length, 1)

end

/-- The two Wappalyzer metadata truncations of cleanWappalyzerPatternAST:
cut before "\\;version:" and then before "\\;confidence:". -/
def truncMeta (raw : String) : String :=
  let r1 := String.mk (truncBeforeL "\\;version:".data raw.data)
  String.mk (truncBeforeL "\\;confidence:".data r1.data)

/-- cleanWappalyzerPatternAST from internal/pipeline: truncate the metadata,
trim, bail on empty, strip backreferences, parse (abstract Perl parser that
yields none on a syntax error, making the pattern discarded), unwrap capture
groups, and serialise back (abstract). -/
def cleanWappalyzerPatternAST (parse : String → Option Ast)
    (serial : Ast → String) (raw : String) : String :=
  let t := trimStr (truncMeta raw)
  if t = "" then ""
  else
    match parse (String.mk (removeBackrefs t.data)) with
    | none => ""
    | some ast => serial (transform ast)

/-- The exact string handed to the parser for a raw regex part. -/
def cleanedInputOf (raw : String) : String :=
  String.mk (removeBackrefs (trimStr (truncMeta raw)).data)

/-- strings.Split on a multi-character separator; the skip counter drops the
remaining separator characters after a match. -/
def goSplitSeqAux (sep : List Char) : List Char → Nat → List (List Char)
  | [], _ => [[]]
  | _ :: rest, skip + 1 => goSplitSeqAux sep rest skip
  | c :: rest, 0 =>
    if sep ≠ [] ∧ sep.isPrefixOf (c :: rest) then
      [] :: goSplitSeqAux sep rest (sep.length - 1)
    else
      match goSplitSeqAux sep rest 0 with
      | [] => [[c]]
      | p :: ps => (c :: p) :: ps

def goSplitSeq (sep s : String) : List String :=
  (goSplitSeqAux sep.data s.data 0).map String.mk

/-- strings.SplitN(s, sep, 2) for a single-character separator. -/
def splitFirstAux (sep : Char) : List Char → List (List Char)
  | [] => [[]]
  | c :: rest =>
    if c = sep then [[], rest]
    else
      match splitFirstAux sep rest with
      | [] => [[c]]
      | p :: ps => (c :: p) :: ps

def splitN2 (s : String) (sep : Char) : List String :=
  (splitFirstAux sep s.data).map String.mk

/-- parseWappalyzerDSL: split the raw pattern on the `\\;` escape, take the
first part as the regex, and collect `key:value` commands from the rest
(parts without a colon are skipped). -/
def parseWappalyzerDSL (rawPattern : String) :
    Option (String × List (String × String)) :=
  if rawPattern = "" then none
  else
    let parts := goSplitSeq "\\;" rawPattern
    let commands := parts.tail.foldl (fun m part =>
      match splitN2 part ':' with
      | [k, v] => mapInsert m k v
      | _ => m) []
    some (parts.headD "", commands)

/-- The regex part the DSL parser extracts from a raw pattern. -/
def dslRegexOf (raw : String) : String :=
  match parseWappalyzerDSL raw with
  | none => ""
  | some p => p.1

/-- The denylist of low-signal patterns from internal/pipeline. -/
def patternDenylist : List String :=
  ["noscript", "script", "meta", "title", "head", "body", "div", "span",
   "style", "button", "submit", "login", "admin", "cart", "http", "https",
   "paypal", "react", "vue", "angular", "jquery", "svelte", "wagtail"]

def minPatternLength : Nat := 4

/-- The character class of simpleCharCounter: [a-zA-Z0-9]. -/
def isAlnum (c : Char) : Bool :=
  decide (('a' ≤ c ∧ c ≤ 'z') ∨ ('A' ≤ c ∧ c ≤ 'Z') ∨ ('0' ≤ c ∧ c ≤ '9'))

/-- len(simpleCharCounter.FindAllString(s, -1)). -/
def alnumCount (s : String) : Nat := (s.data.filter isAlnum).length

/-- normalizePatternValue from internal/pipeline over an already-extracted
raw pattern string; `compiles` abstracts regexp.Compile succeeding.  The
gates run in source order: empty raw, DSL parse, denylist on the lower-cased
cleaned trimmed regex, trivial patterns, minimum alphanumeric count, final
compile check. -/
def normalizePatternValue (parse : String → Option Ast) (serial : Ast → String)
    (compiles : String → Bool) (raw : String) :
    Option (String × List (String × String)) :=
  if raw = "" then none
  else
    match parseWappalyzerDSL raw with
    | none => none
    | some (rx0, commands) =>
      let trimmedCleanedRegex := trimStr (cleanWappalyzerPatternAST parse serial rx0)
      if lowerStr trimmedCleanedRegex ∈ patternDenylist then none
      else if trimmedCleanedRegex = "" ∨ trimmedCleanedRegex = ".*" ∨
          trimmedCleanedRegex = "." then none
      else if alnumCount trimmedCleanedRegex < minPatternLength then none
      else if compiles trimmedCleanedRegex then some (trimmedCleanedRegex, commands)
      else none

/-- The cleaned, trimmed regex the gates of normalizePatternValue inspect. -/
def cleanedTrimmedOf (parse : String → Option Ast) (serial : Ast → String)
    (raw : String) : String :=
  match parseWappalyzerDSL raw with
  | none => ""
  | some p => trimStr (cleanWappalyzerPatternAST parse serial p.1)

/-! ## Theorems: association-list lemmas -/

theorem mapLookup_insert_self {α : Type} (m : List (String × α)) (k : String) (v : α) :
    mapLookup (mapInsert m k v) k = some v := by
  induction m with
  | nil => simp [mapInsert, mapLookup]
  | cons p rest ih =>
    by_cases h : p.1 = k
    · simp [mapInsert, h, mapLookup]
    · simp [mapInsert, h, mapLookup, ih]

theorem mapLookup_insert_ne {α : Type} (m : List (String × α)) (k k' : String) (v : α)
    (h : k ≠ k') : mapLookup (mapInsert m k v) k' = mapLookup m k' := by
  induction m with
  | nil => simp [mapInsert, mapLookup, h]
  | cons p rest ih =>
    by_cases hp : p.1 = k
    · simp [mapInsert, hp, mapLookup, h]
    · simp only [mapInsert, hp, if_false, mapLookup]
      by_cases hp' : p.1 = k'
      · simp [hp']
      · simp [hp', ih]

theorem mapLookup_isSome_iff_mem_keys {α : Type} (m : List (String × α)) (k : String) :
    (mapLookup m k).isSome ↔ k ∈ mapKeys m := by
  induction m with
  | nil => simp [mapLookup, mapKeys]
  | cons p rest ih =>
    by_cases h : p.1 = k
    · simp [mapLookup, h, mapKeys]
    · simp [mapLookup, h, mapKeys, ih, Ne.symm h]

theorem mapLookup_mem {α : Type} (m : List (String × α)) (k : String) (v : α)
    (h : mapLookup m k = some v) : (k, v) ∈ m := by
  induction m with
  | nil => simp [mapLookup] at h
  | cons p rest ih =>
    by_cases hp : p.1 = k
    · simp only [mapLookup, hp, if_true] at h
      cases h
      have hpk : (k, p.2) = p := by
        cases p
        simp_all
      rw [hpk]
      exact List.mem_cons_self _ _
    · simp only [mapLookup, hp, if_false] at h
      exact List.mem_cons_of_mem _ (ih h)

/-! ### Lemmas about the implies engine -/

theorem processImplies_queue_length (t : String) (imp : List String) (q : List String)
    (d : DMap) : (processImplies t imp q d).1.length ≤ q.length + imp.length := by
  induction imp generalizing q d with
  | nil => simp [processImplies]
  | cons u rest ih =>
    simp only [processImplies]
    cases hv : mapLookup d u with
    | some x =>
      have := ih q d
      simpa using Nat.le_trans this (by omega)
    | none =>
      have := ih (q ++ [u]) (mapInsert d u (impliedDetection t))
      simp only [List.length_append, List.length_singleton] at this
      simpa using Nat.le_trans this (by omega)

theorem unprocessedImplies_cons_le (apps : Apps) (t : String) (proc : List String) :
    unprocessedImplies apps (t :: proc) ≤ unprocessedImplies apps proc := by
  induction apps with
  | nil => simp [unprocessedImplies]
  | cons p rest ih =>
    obtain ⟨n, fp⟩ := p
    simp only [unprocessedImplies]
    by_cases h : n ∈ proc
    · simp only [List.mem_cons, h, or_true, if_true]
      omega
    · by_cases h' : n = t
      · simp only [List.mem_cons, h, h', true_or, if_true, or_false, if_false]
        omega
      · simp only [List.mem_cons, h, h', or_false, if_false]
        omega

theorem unprocessedImplies_lookup (apps : Apps) (t : String) (proc : List String)
    (fp : Fingerprint) (hl : mapLookup apps t = some fp) (hn : t ∉ proc) :
    unprocessedImplies apps (t :: proc) + fp.implies.length ≤ unprocessedImplies apps proc := by
  induction apps with
  | nil => simp [mapLookup] at hl
  | cons p rest ih =>
    obtain ⟨n, g⟩ := p
    by_cases h : n = t
    · subst h
      simp only [mapLookup, if_true] at hl
      cases hl
      simp only [unprocessedImplies, List.mem_cons, true_or, if_true, hn, if_false]
      have := unprocessedImplies_cons_le rest n proc
      omega
    · simp only [mapLookup, h, if_false] at hl
      have := ih hl
      simp only [unprocessedImplies, List.mem_cons, h, false_or]
      omega

theorem impliesLoop_isSome (apps : Apps) (fuel : Nat) :
    ∀ (queue processed : List String) (d : DMap),
      queue.length + unprocessedImplies apps processed ≤ fuel →
      (impliesLoop apps fuel queue processed d).isSome := by
  induction fuel with
  | zero =>
    intro queue processed d h
    match queue with
    | [] => simp [impliesLoop]
    | t :: q => simp [List.length_cons] at h
  | succ fuel ih =>
    intro queue processed d h
    match queue with
    | [] => simp [impliesLoop]
    | t :: q =>
      simp only [List.length_cons] at h
      simp only [impliesLoop]
      by_cases hp : t ∈ processed
      · simp only [hp, if_true]
        exact ih q processed d (by omega)
      · simp only [hp, if_false]
        have hmono := unprocessedImplies_cons_le apps t processed
        cases hd : mapLookup d t with
        | none => exact ih q (t :: processed) d (by omega)
        | some dt =>
          by_cases hc : dt.confidence.toNat < ConfidenceLevel.high.toNat
          · simp only [hc, if_true]
            exact ih q (t :: processed) d (by omega)
          · simp only [hc, if_false]
            cases ha : mapLookup apps t with
            | none => exact ih q (t :: processed) d (by omega)
            | some fp =>
              have h1 := processImplies_queue_length t fp.implies q d
              have h2 := unprocessedImplies_lookup apps t processed fp ha hp
              exact ih _ (t :: processed) _ (by omega)

theorem impliesLoop_processed_nodup (apps : Apps) (fuel : Nat) :
    ∀ (queue processed : List String) (d : DMap) res,
      impliesLoop apps fuel queue processed d = some res →
      processed.Nodup → res.2.Nodup := by
  induction fuel with
  | zero =>
    intro queue processed d res h hnd
    match queue with
    | [] =>
      simp only [impliesLoop, Option.some.injEq] at h
      cases h
      exact hnd
    | t :: q => simp [impliesLoop] at h
  | succ fuel ih =>
    intro queue processed d res h hnd
    match queue with
    | [] =>
      simp only [impliesLoop, Option.some.injEq] at h
      cases h
      exact hnd
    | t :: q =>
      simp only [impliesLoop] at h
      by_cases hp : t ∈ processed
      · simp only [hp, if_true] at h
        exact ih q processed d res h hnd
      · simp only [hp, if_false] at h
        have hnd' : (t :: processed).Nodup := by
          simp [List.nodup_cons, hp, hnd]
        cases hd : mapLookup d t with
        | none =>
          rw [hd] at h
          exact ih q (t :: processed) d res h hnd'
        | some dt =>
          rw [hd] at h
          by_cases hc : dt.confidence.toNat < ConfidenceLevel.high.toNat
          · simp only [hc, if_true] at h
            exact ih q (t :: processed) d res h hnd'
          · simp only [hc, if_false] at h
            cases ha : mapLookup apps t with
            | none =>
              rw [ha] at h
              exact ih q (t :: processed) d res h hnd'
            | some fp =>
              rw [ha] at h
              exact ih _ (t :: processed) _ res h hnd'

theorem confidence_eq_high_of_not_lt (c : ConfidenceLevel)
    (h : ¬ c.toNat < ConfidenceLevel.high.toNat) : c = ConfidenceLevel.high := by
  cases c <;> simp [ConfidenceLevel.toNat] at h ⊢

theorem impliesLoop_all_below_high (apps : Apps) (fuel : Nat) :
    ∀ (queue processed : List String) (d : DMap) res,
      (∀ p ∈ d, p.2.confidence ≠ ConfidenceLevel.high) →
      impliesLoop apps fuel queue processed d = some res →
      res.1 = d := by
  induction fuel with
  | zero =>
    intro queue processed d res hlow h
    match queue with
    | [] =>
      simp only [impliesLoop, Option.some.injEq] at h
      cases h
      rfl
    | t :: q => simp [impliesLoop] at h
  | succ fuel ih =>
    intro queue processed d res hlow h
    match queue with
    | [] =>
      simp only [impliesLoop, Option.some.injEq] at h
      cases h
      rfl
    | t :: q =>
      simp only [impliesLoop] at h
      by_cases hp : t ∈ processed
      · simp only [hp, if_true] at h
        exact ih q processed d res hlow h
      · simp only [hp, if_false] at h
        cases hd : mapLookup d t with
        | none =>
          rw [hd] at h
          exact ih q (t :: processed) d res hlow h
        | some dt =>
          rw [hd] at h
          by_cases hc : dt.confidence.toNat < ConfidenceLevel.high.toNat
          · simp only [hc, if_true] at h
            exact ih q (t :: processed) d res hlow h
          · exfalso
            exact hlow (t, dt) (mapLookup_mem d t dt hd)
              (confidence_eq_high_of_not_lt dt.confidence hc)

theorem processImplies_lookup (t : String) (imp : List String) :
    ∀ (q : List String) (d : DMap) (u : String),
      mapLookup (processImplies t imp q d).2 u =
        if u ∈ imp ∧ mapLookup d u = none then some (impliedDetection t)
        else mapLookup d u := by
  induction imp with
  | nil =>
    intro q d u
    simp [processImplies]
  | cons v rest ih =>
    intro q d u
    simp only [processImplies]
    cases hv : mapLookup d v with
    | some x =>
      rw [ih q d u]
      by_cases huv : u = v
      · subst huv
        simp [hv]
      · simp [List.mem_cons, huv]
    | none =>
      rw [ih (q ++ [v]) (mapInsert d v (impliedDetection t)) u]
      by_cases huv : u = v
      · subst huv
        simp [mapLookup_insert_self, hv]
      · rw [mapLookup_insert_ne d v u _ (Ne.symm huv)]
        simp [List.mem_cons, huv]

theorem processImplies_inv (apps : Apps) (initial : DMap) (t : String) (dt : Detection)
    (fp : Fingerprint) (ht : mapLookup initial t = some dt)
    (hth : dt.confidence = ConfidenceLevel.high) (hfp : mapLookup apps t = some fp)
    (q : List String) (d : DMap) (hinv : ImpliesInv apps initial d) :
    ImpliesInv apps initial (processImplies t fp.implies q d).2 := by
  constructor
  · intro k v hk
    rw [processImplies_lookup]
    have := hinv.1 k v hk
    simp [this]
  · intro u du hu hnone
    rw [processImplies_lookup] at hu
    by_cases hcond : u ∈ fp.implies ∧ mapLookup d u = none
    · rw [if_pos hcond] at hu
      cases hu
      exact ⟨rfl, t, dt, fp, ht, hth, hfp, hcond.1, rfl⟩
    · rw [if_neg hcond] at hu
      exact hinv.2 u du hu hnone

theorem impliesLoop_inv (apps : Apps) (initial : DMap) (fuel : Nat) :
    ∀ (queue processed : List String) (d : DMap) res,
      ImpliesInv apps initial d →
      impliesLoop apps fuel queue processed d = some res →
      ImpliesInv apps initial res.1 := by
  induction fuel with
  | zero =>
    intro queue processed d res hinv h
    match queue with
    | [] =>
      simp only [impliesLoop, Option.some.injEq] at h
      cases h
      exact hinv
    | t :: q => simp [impliesLoop] at h
  | succ fuel ih =>
    intro queue processed d res hinv h
    match queue with
    | [] =>
      simp only [impliesLoop, Option.some.injEq] at h
      cases h
      exact hinv
    | t :: q =>
      simp only [impliesLoop] at h
      by_cases hp : t ∈ processed
      · simp only [hp, if_true] at h
        exact ih q processed d res hinv h
      · simp only [hp, if_false] at h
        cases hd : mapLookup d t with
        | none =>
          rw [hd] at h
          exact ih q (t :: processed) d res hinv h
        | some dt =>
          rw [hd] at h
          by_cases hc : dt.confidence.toNat < ConfidenceLevel.high.toNat
          · simp only [hc, if_true] at h
            exact ih q (t :: processed) d res hinv h
          · simp only [hc, if_false] at h
            have hth : dt.confidence = ConfidenceLevel.high :=
              confidence_eq_high_of_not_lt dt.confidence hc
            cases ha : mapLookup apps t with
            | none =>
              rw [ha] at h
              exact ih q (t :: processed) d res hinv h
            | some fp =>
              rw [ha] at h
              -- the source t must be an initial seed: an added entry has
              -- Medium confidence, contradicting the High gate
              have htinit : mapLookup initial t = some dt := by
                cases hi : mapLookup initial t with
                | none =>
                  have := (hinv.2 t dt hd hi).1
                  rw [hth] at this
                  cases this
                | some dt0 =>
                  have hdd := hinv.1 t dt0 hi
                  rw [hd] at hdd
                  injection hdd with hdd'
                  rw [hdd']
              exact ih _ (t :: processed) _ res
                (processImplies_inv apps initial t dt fp htinit hth ha q d hinv) h

theorem unprocessedImplies_nil (apps : Apps) :
    unprocessedImplies apps [] = sumImplies apps := by
  induction apps with
  | nil => rfl
  | cons p rest ih =>
    obtain ⟨n, fp⟩ := p
    simp [unprocessedImplies, sumImplies, ih]

theorem runImpliesEngineO_isSome (apps : Apps) (detected : DMap) :
    (runImpliesEngineO apps detected).isSome := by
  apply impliesLoop_isSome
  rw [unprocessedImplies_nil]
  simp [mapKeys, impliesFuel]

/-! ## Claim theorems for the implies engine -/

/-- C1.  Implies-engine gating and assignment: for every initial detected map
the implies engine terminates (the fuelled loop completes) with a
duplicate-free processed list, so each technology is processed at most once;
if every seed detection has confidence below High the detected map is
unchanged (nothing is added); a processed technology whose detection is below
High contributes nothing (its loop step leaves the detected map untouched);
and a processed technology `t` with High confidence adds, via
`processImplies`, exactly those `u` in its implies list that are not already
detected, each recorded with detected_by `"implies from: " ++ t` and Medium
confidence. -/
theorem implies_engine_gating_and_assignment (apps : Apps) (detected : DMap) :
    (∃ res, runImpliesEngineO apps detected = some res ∧ res.2.Nodup) ∧
    ((∀ p ∈ detected, p.2.confidence ≠ ConfidenceLevel.high) →
      runImpliesEngine apps detected = detected) ∧
    (∀ t imp q d u, mapLookup (processImplies t imp q d).2 u =
      if u ∈ imp ∧ mapLookup d u = none then some (impliedDetection t)
      else mapLookup d u) ∧
    (∀ fuel t q proc d dt, t ∉ proc → mapLookup d t = some dt →
      dt.confidence.toNat < ConfidenceLevel.high.toNat →
      impliesLoop apps (fuel + 1) (t :: q) proc d =
        impliesLoop apps fuel q (t :: proc) d) ∧
    (∀ fuel t q proc d dt fp, t ∉ proc → mapLookup d t = some dt →
      dt.confidence = ConfidenceLevel.high → mapLookup apps t = some fp →
      impliesLoop apps (fuel + 1) (t :: q) proc d =
        impliesLoop apps fuel (processImplies t fp.implies q d).1 (t :: proc)
          (processImplies t fp.implies q d).2) := by
  refine ⟨?_, ?_, ?_, ?_, ?_⟩
  · have h := runImpliesEngineO_isSome apps detected
    cases hres : runImpliesEngineO apps detected with
    | none => rw [hres] at h; cases h
    | some res =>
      refine ⟨res, rfl, ?_⟩
      exact impliesLoop_processed_nodup apps (impliesFuel apps detected)
        (mapKeys detected) [] detected res hres List.nodup_nil
  · intro hlow
    unfold runImpliesEngine
    cases hres : runImpliesEngineO apps detected with
    | none => rfl
    | some res =>
      exact impliesLoop_all_below_high apps (impliesFuel apps detected)
        (mapKeys detected) [] detected res hlow hres
  · intro t imp q d u
    exact processImplies_lookup t imp q d u
  · intro fuel t q proc d dt hp hd hc
    simp only [impliesLoop, hp, if_false, hd, hc, if_true]
  · intro fuel t q proc d dt fp hp hd hc ha
    have hnl : ¬ dt.confidence.toNat < ConfidenceLevel.high.toNat := by
      rw [hc]
      omega
    simp only [impliesLoop, hp, if_false, hd, hnl, ha]

/-- Witness for C1 at concrete inputs: a single Low-confidence seed propagates
nothing; `processImplies` records an implied technology with the implied
Detection; and both conditional loop-step equations are realised. -/
theorem implies_engine_gating_and_assignment_witness :
    runImpliesEngine [("A", { implies := ["B"] })]
        [("A", { version := "", detectedBy := "html", matchedPattern := "",
                 matchedValue := "", confidence := ConfidenceLevel.low })] =
      [("A", { version := "", detectedBy := "html", matchedPattern := "",
               matchedValue := "", confidence := ConfidenceLevel.low })] ∧
    mapLookup (processImplies "A" ["B"] []
        [("A", { version := "", detectedBy := "header:Server", matchedPattern := "",
                 matchedValue := "", confidence := ConfidenceLevel.high })]).2 "B" =
      some (impliedDetection "A") ∧
    impliesLoop [] 1 ["C"] []
        [("C", { version := "", detectedBy := "html", matchedPattern := "",
                 matchedValue := "", confidence := ConfidenceLevel.low })] =
      impliesLoop [] 0 [] ["C"]
        [("C", { version := "", detectedBy := "html", matchedPattern := "",
                 matchedValue := "", confidence := ConfidenceLevel.low })] ∧
    impliesLoop [("A", { implies := ["B"] })] 1 ["A"] []
        [("A", { version := "", detectedBy := "header:Server", matchedPattern := "",
                 matchedValue := "", confidence := ConfidenceLevel.high })] =
      impliesLoop [("A", { implies := ["B"] })] 0
        (processImplies "A" ["B"] []
          [("A", { version := "", detectedBy := "header:Server", matchedPattern := "",
                   matchedValue := "", confidence := ConfidenceLevel.high })]).1 ["A"]
        (processImplies "A" ["B"] []
          [("A", { version := "", detectedBy := "header:Server", matchedPattern := "",
                   matchedValue := "", confidence := ConfidenceLevel.high })]).2 := by
  refine ⟨?_, ?_, ?_, ?_⟩
  · exact (implies_engine_gating_and_assignment
      [("A", { implies := ["B"] })] _).2.1 (by decide)
  · rw [(implies_engine_gating_and_assignment [] []).2.2.1 "A" ["B"] [] _ "B"]
    decide
  · exact (implies_engine_gating_and_assignment [] []).2.2.2.1 0 "C" [] [] _
      { version := "", detectedBy := "html", matchedPattern := "",
        matchedValue := "", confidence := ConfidenceLevel.low }
      (by decide) (by decide) (by decide)
  · exact (implies_engine_gating_and_assignment
      [("A", { implies := ["B"] })] []).2.2.2.2 0 "A" [] [] _
      { version := "", detectedBy := "header:Server", matchedPattern := "",
        matchedValue := "", confidence := ConfidenceLevel.high }
      { implies := ["B"] }
      (by decide) (by decide) (by decide) (by decide)

/-- C10.  No transitive propagation: every technology present after the
implies engine ran but absent from the initial (vector-matcher) detected map
carries Medium confidence and is directly listed in the implies list of some
technology that the initial map holds with High confidence; its detected_by
names that seed. -/
theorem implies_engine_one_step_from_high_seeds (apps : Apps) (initial : DMap)
    (u : String) (du : Detection)
    (hu : mapLookup (runImpliesEngine apps initial) u = some du)
    (hnew : mapLookup initial u = none) :
    du.confidence = ConfidenceLevel.medium ∧
    ∃ t dt fp, mapLookup initial t = some dt ∧
      dt.confidence = ConfidenceLevel.high ∧
      mapLookup apps t = some fp ∧ u ∈ fp.implies ∧
      du.detectedBy = "implies from: " ++ t := by
  have hbase : ImpliesInv apps initial initial := by
    constructor
    · intro k v hk
      exact hk
    · intro x dx hx hnone
      rw [hx] at hnone
      cases hnone
  cases hres : runImpliesEngineO apps initial with
  | none =>
    unfold runImpliesEngine at hu
    rw [hres] at hu
    rw [hu] at hnew
    cases hnew
  | some res =>
    unfold runImpliesEngine at hu
    rw [hres] at hu
    have hinv := impliesLoop_inv apps initial (impliesFuel apps initial)
      (mapKeys initial) [] initial res hbase hres
    exact hinv.2 u du hu hnew

/-- Witness for C10: with `A` detected High by a header and `A implies B`, the
final entry for `B` is Medium and points back to the High seed `A`. -/
theorem implies_engine_one_step_from_high_seeds_witness :
    (impliedDetection "A").confidence = ConfidenceLevel.medium ∧
    ∃ (t : String) (dt : Detection) (fp : Fingerprint),
      mapLookup ([("A", { version := "1", detectedBy := "header:Server",
                          matchedPattern := "", matchedValue := "",
                          confidence := ConfidenceLevel.high })] : DMap)
        t = some dt ∧
      dt.confidence = ConfidenceLevel.high ∧
      mapLookup ([("A", { implies := ["B"] })] : Apps) t = some fp ∧
      "B" ∈ fp.implies ∧
      (impliedDetection "A").detectedBy = "implies from: " ++ t :=
  implies_engine_one_step_from_high_seeds
    [("A", { implies := ["B"] })]
    [("A", { version := "1", detectedBy := "header:Server", matchedPattern := "",
             matchedValue := "", confidence := ConfidenceLevel.high })]
    "B" (impliedDetection "A") (by decide) (by decide)

/-! ## Write-sequence lemmas (last-write-wins machinery) -/

theorem applyWrites_cons (p : String × Detection) (ws : List (String × Detection))
    (d : DMap) : applyWrites (p :: ws) d = applyWrites ws (mapInsert d p.1 p.2) :=
  rfl

theorem applyWrites_append (ws1 ws2 : List (String × Detection)) (d : DMap) :
    applyWrites (ws1 ++ ws2) d = applyWrites ws2 (applyWrites ws1 d) := by
  simp [applyWrites, List.foldl_append]

theorem lastWrite_cons (p : String × Detection) (ws : List (String × Detection))
    (a : String) :
    lastWrite (p :: ws) a =
      match lastWrite ws a with
      | some x => some x
      | none => if p.1 = a then some p.2 else none := by
  simp only [lastWrite, List.reverse_cons]
  rw [List.find?_append]
  cases h : List.find? (fun q => q.1 == a) ws.reverse with
  | some q => simp [h]
  | none =>
    by_cases hp : p.1 = a
    · simp [List.find?, hp]
    · have hb : (p.1 == a) = false := by
        simp [hp]
      simp [List.find?, hb, hp]

/-- Looking up an application after a write sequence: the last write for the
application wins, independently of whatever was detected before; an
application never written keeps its prior detection. -/
theorem mapLookup_applyWrites (ws : List (String × Detection)) :
    ∀ (d : DMap) (a : String),
      mapLookup (applyWrites ws d) a =
        match lastWrite ws a with
        | some x => some x
        | none => mapLookup d a := by
  induction ws with
  | nil =>
    intro d a
    simp [applyWrites, lastWrite]
  | cons p rest ih =>
    intro d a
    rw [applyWrites_cons, ih (mapInsert d p.1 p.2) a, lastWrite_cons]
    cases h : lastWrite rest a with
    | some x => rfl
    | none =>
      by_cases hp : p.1 = a
      · rw [hp, if_pos rfl, mapLookup_insert_self]
      · rw [if_neg hp, mapLookup_insert_ne _ _ _ _ hp]

/-- A pattern-list fold that writes a detection from a direct match of a fixed
input equals applying the corresponding write sequence. -/
theorem foldl_match_writes (tagStr : String) (conf : ConfidenceLevel) (input : String)
    (patterns : List PatternInfo) :
    ∀ d : DMap,
      patterns.foldl (fun det pi =>
        match pi.pattern input with
        | some subs => mapInsert det pi.appName (mkDetection tagStr conf pi subs)
        | none => det) d
      = applyWrites (patterns.filterMap (fun pi =>
          (pi.pattern input).map (fun subs =>
            (pi.appName, mkDetection tagStr conf pi subs)))) d := by
  induction patterns with
  | nil => intro d; rfl
  | cons pi rest ih =>
    intro d
    simp only [List.foldl_cons, List.filterMap_cons]
    cases hp : pi.pattern input with
    | none => simp only [hp, Option.map_none']; exact ih d
    | some subs =>
      simp only [hp, Option.map_some']
      rw [applyWrites_cons]
      exact ih _

/-- A pattern-list fold that writes a detection from the first matching value
of a value list equals applying the corresponding write sequence. -/
theorem foldl_findSome_writes (tagStr : String) (conf : ConfidenceLevel)
    (values : List String) (patterns : List PatternInfo) :
    ∀ d : DMap,
      patterns.foldl (fun det pi =>
        match values.findSome? pi.pattern with
        | some subs => mapInsert det pi.appName (mkDetection tagStr conf pi subs)
        | none => det) d
      = applyWrites (patterns.filterMap (fun pi =>
          (values.findSome? pi.pattern).map (fun subs =>
            (pi.appName, mkDetection tagStr conf pi subs)))) d := by
  induction patterns with
  | nil => intro d; rfl
  | cons pi rest ih =>
    intro d
    simp only [List.foldl_cons, List.filterMap_cons]
    cases hp : values.findSome? pi.pattern with
    | none => simp only [hp, Option.map_none']; exact ih d
    | some subs =>
      simp only [hp, Option.map_some']
      rw [applyWrites_cons]
      exact ih _

theorem matchURL_eq_applyWrites (k : KitsuneM) (data : AnalysisData) (d : DMap) :
    matchURL k data d = applyWrites (urlWrites k data) d :=
  foldl_match_writes "url" ConfidenceLevel.medium data.targetURL
    k.matcher.urlPatterns d

theorem matchRobots_eq_applyWrites (k : KitsuneM) (data : AnalysisData) (d : DMap) :
    matchRobots k data d = applyWrites (robotsWrites k data) d := by
  unfold matchRobots robotsWrites
  cases data.robotsContent with
  | none => rfl
  | some content =>
    exact foldl_match_writes "robots" ConfidenceLevel.medium content
      k.matcher.robotsPatterns d

theorem matchScriptSrc_eq_applyWrites (k : KitsuneM) (pageData : PageData) (d : DMap) :
    matchScriptSrc k pageData d = applyWrites (scriptSrcWrites k pageData) d :=
  foldl_findSome_writes "scriptSrc" ConfidenceLevel.high pageData.scriptSrcs
    k.matcher.scriptSrcPatterns d

theorem matchHeaders_eq_applyWrites (k : KitsuneM)
    (headers : List (String × List String)) :
    ∀ d : DMap, matchHeaders k headers d = applyWrites (headersWrites k headers) d := by
  unfold matchHeaders headersWrites
  induction headers with
  | nil => intro d; rfl
  | cons entry rest ih =>
    intro d
    simp only [List.foldl_cons, List.flatMap_cons]
    rw [applyWrites_append]
    cases hl : mapLookup k.matcher.headerPatterns (lowerStr entry.1) with
    | none => simp only [hl]; exact ih d
    | some patterns =>
      simp only [hl]
      rw [foldl_findSome_writes ("header:" ++ entry.1) ConfidenceLevel.high
        entry.2 patterns d]
      exact ih _

theorem matchMeta_eq_applyWrites (k : KitsuneM) (pageData : PageData) :
    ∀ d : DMap, matchMeta k pageData d = applyWrites (metaWrites k pageData) d := by
  unfold matchMeta metaWrites
  induction pageData.metaContent with
  | nil => intro d; rfl
  | cons entry rest ih =>
    intro d
    simp only [List.foldl_cons, List.flatMap_cons]
    rw [applyWrites_append]
    cases hl : mapLookup k.matcher.metaPatterns (lowerStr entry.1) with
    | none => simp only [hl]; exact ih d
    | some patterns =>
      simp only [hl]
      rw [foldl_findSome_writes ("meta:" ++ entry.1) ConfidenceLevel.medium
        entry.2 patterns d]
      exact ih _

theorem processParsedCookies_eq_applyWrites (k : KitsuneM)
    (cookies : List (String × String)) :
    ∀ d : DMap,
      processParsedCookies k cookies d = applyWrites (cookiesWrites k cookies) d := by
  unfold processParsedCookies cookiesWrites
  induction cookies with
  | nil => intro d; rfl
  | cons c rest ih =>
    intro d
    simp only [List.foldl_cons, List.filterMap_cons]
    cases hl : mapLookup k.matcher.cookiePatterns c.1 with
    | none => simp only [hl]; exact ih d
    | some patterns =>
      simp only [hl]
      cases hf : patterns.findSome? (fun pi => (pi.pattern c.2).map (fun subs => (pi, subs))) with
      | none => simp only [hf, Option.map_none']; exact ih d
      | some pr =>
        simp only [hf, Option.map_some']
        rw [applyWrites_cons]
        exact ih _

theorem matchCookies_eq_applyWrites (k : KitsuneM)
    (headers : List (String × List String)) (d : DMap) :
    matchCookies k headers d =
      applyWrites (cookiesWrites k (parsedCookiesFromPairs (rawCookiePairs headers))) d :=
  processParsedCookies_eq_applyWrites k _ d

theorem matchJS_inner_eq_applyWrites (k : KitsuneM) (pairs : List (String × String)) :
    ∀ d : DMap,
      pairs.foldl (fun det kv =>
        if kv.2 = "" then det
        else
          match mapLookup k.matcher.jsPatterns kv.1 with
          | none => det
          | some patterns =>
            match patterns.findSome? (fun pi => (pi.pattern kv.2).map (fun subs => (pi, subs))) with
            | some pr =>
              mapInsert det pr.1.appName
                (mkDetection ("js:" ++ kv.1) ConfidenceLevel.high pr.1 pr.2)
            | none => det) d
      = applyWrites (pairs.filterMap (fun kv =>
          if kv.2 = "" then none
          else
            match mapLookup k.matcher.jsPatterns kv.1 with
            | none => none
            | some patterns =>
              (patterns.findSome? (fun pi => (pi.pattern kv.2).map (fun subs => (pi, subs)))).map
                (fun pr => (pr.1.appName,
                  mkDetection ("js:" ++ kv.1) ConfidenceLevel.high pr.1 pr.2)))) d := by
  induction pairs with
  | nil => intro d; rfl
  | cons kv rest ih =>
    intro d
    by_cases he : kv.2 = ""
    · simp only [List.foldl_cons, List.filterMap_cons, if_pos he]
      exact ih d
    · simp only [List.foldl_cons, List.filterMap_cons, if_neg he]
      cases hl : mapLookup k.matcher.jsPatterns kv.1 with
      | none => simp only [hl]; exact ih d
      | some patterns =>
        simp only [hl]
        cases hf : patterns.findSome? (fun pi => (pi.pattern kv.2).map (fun subs => (pi, subs))) with
        | none => simp only [hf, Option.map_none']; exact ih d
        | some pr =>
          simp only [hf, Option.map_some']
          rw [applyWrites_cons]
          exact ih _

theorem matchJS_eq_applyWrites (k : KitsuneM) (pageData : PageData) :
    ∀ d : DMap, matchJS k pageData d = applyWrites (jsWrites k pageData) d := by
  unfold matchJS jsWrites
  by_cases hempty : k.matcher.jsPatterns.isEmpty
  · intro d
    simp only [if_pos hempty]
    rfl
  · simp only [if_neg hempty]
    induction pageData.inlineScripts with
    | nil => intro d; rfl
    | cons script rest ih =>
      intro d
      simp only [List.foldl_cons, List.flatMap_cons]
      rw [applyWrites_append, matchJS_inner_eq_applyWrites k (k.jsExtract script) d]
      exact ih _

theorem matchDOM_eq_applyWrites (k : KitsuneM) (data : AnalysisData) :
    ∀ d : DMap, matchDOM k data d = applyWrites (domWrites k data) d := by
  unfold matchDOM domWrites
  cases data.pageData with
  | none => intro d; rfl
  | some pd =>
    induction k.matcher.domPatterns with
    | nil => intro d; rfl
    | cons pi rest ih =>
      intro d
      by_cases hc : 0 < pd.findCount pi.patternStr
      · simp only [List.foldl_cons, List.filterMap_cons, if_pos hc]
        rw [applyWrites_cons]
        exact ih _
      · simp only [List.foldl_cons, List.filterMap_cons, if_neg hc]
        exact ih d

theorem matchDNS_eq_applyWrites (k : KitsuneM) (data : AnalysisData) :
    ∀ d : DMap, matchDNS k data d = applyWrites (dnsWrites k data) d := by
  unfold matchDNS dnsWrites
  induction k.matcher.dnsPatterns with
  | nil => intro d; rfl
  | cons entry rest ih =>
    intro d
    simp only [List.foldl_cons, List.flatMap_cons]
    rw [applyWrites_append]
    cases hl : mapLookup data.dnsRecords entry.1 with
    | none => simp only [hl]; exact ih d
    | some records =>
      simp only [hl]
      rw [foldl_findSome_writes ("dns:" ++ entry.1) ConfidenceLevel.high
        records entry.2 d]
      exact ih _

theorem matchCertIssuer_eq_applyWrites (k : KitsuneM) (data : AnalysisData) :
    ∀ d : DMap, matchCertIssuer k data d = applyWrites (certIssuerWrites k data) d := by
  unfold matchCertIssuer certIssuerWrites
  by_cases he : data.certIssuer = ""
  · intro d
    simp only [if_pos he]
    rfl
  · simp only [if_neg he]
    induction k.matcher.certIssuerPatterns with
    | nil => intro d; rfl
    | cons entry rest ih =>
      intro d
      simp only [List.foldl_cons, List.flatMap_cons]
      rw [applyWrites_append]
      rw [foldl_match_writes "certIssuer" ConfidenceLevel.high data.certIssuer entry.2 d]
      exact ih _

/-! ### The guarded matchers preserve existing detections -/

theorem matchScript_preserves (k : KitsuneM) (pd : PageData) :
    ∀ (d : DMap) (a : String) (x : Detection), mapLookup d a = some x →
      mapLookup (matchScript k pd d) a = some x := by
  unfold matchScript
  induction k.matcher.scriptPatterns with
  | nil => intro d a x h; exact h
  | cons pi rest ih =>
    intro d a x h
    simp only [List.foldl_cons]
    cases hl : mapLookup d pi.appName with
    | some y => simp only [hl]; exact ih d a x h
    | none =>
      simp only [hl]
      cases hm : pd.inlineScripts.findSome? pi.pattern with
      | none => exact ih d a x h
      | some subs =>
        apply ih
        have hne : pi.appName ≠ a := by
          intro he
          rw [he, h] at hl
          cases hl
        rw [mapLookup_insert_ne _ _ _ _ hne]
        exact h

theorem matchHTML_preserves (k : KitsuneM) (pd : PageData) :
    ∀ (d : DMap) (a : String) (x : Detection), mapLookup d a = some x →
      mapLookup (matchHTML k pd d) a = some x := by
  unfold matchHTML
  induction k.matcher.htmlPatterns with
  | nil => intro d a x h; exact h
  | cons pi rest ih =>
    intro d a x h
    simp only [List.foldl_cons]
    cases hl : mapLookup d pi.appName with
    | some y => simp only [hl]; exact ih d a x h
    | none =>
      simp only [hl]
      cases hm : pi.pattern pd.visibleText with
      | none => exact ih d a x h
      | some subs =>
        apply ih
        have hne : pi.appName ≠ a := by
          intro he
          rw [he, h] at hl
          cases hl
        rw [mapLookup_insert_ne _ _ _ _ hne]
        exact h

theorem matchCSS_inner_preserves (k : KitsuneM) (cssBlock : String) :
    ∀ (d : DMap) (a : String) (x : Detection), mapLookup d a = some x →
      mapLookup (k.matcher.cssPatterns.foldl (fun det pi =>
        match mapLookup det pi.appName with
        | some _ => det
        | none =>
          match pi.pattern cssBlock with
          | some subs =>
            mapInsert det pi.appName (mkDetection "css" ConfidenceLevel.medium pi subs)
          | none => det) d) a = some x := by
  induction k.matcher.cssPatterns with
  | nil => intro d a x h; exact h
  | cons pi rest ih =>
    intro d a x h
    simp only [List.foldl_cons]
    cases hl : mapLookup d pi.appName with
    | some y => simp only [hl]; exact ih d a x h
    | none =>
      simp only [hl]
      cases hm : pi.pattern cssBlock with
      | none => exact ih d a x h
      | some subs =>
        apply ih
        have hne : pi.appName ≠ a := by
          intro he
          rw [he, h] at hl
          cases hl
        rw [mapLookup_insert_ne _ _ _ _ hne]
        exact h

theorem matchCSS_preserves (k : KitsuneM) (pd : PageData) :
    ∀ (d : DMap) (a : String) (x : Detection), mapLookup d a = some x →
      mapLookup (matchCSS k pd d) a = some x := by
  unfold matchCSS
  induction pd.inlineCSS with
  | nil => intro d a x h; exact h
  | cons cssBlock rest ih =>
    intro d a x h
    simp only [List.foldl_cons]
    exact ih _ a x (matchCSS_inner_preserves k cssBlock d a x h)

/-! ## Claim theorems for the matcher write semantics -/

/-- Counterexample to C2 as stated: the HTML matcher does NOT overwrite a
prior detection.  Here "App" was already detected by an earlier vector
(detected_by "header:Server"), the HTML pattern successfully submatches the
visible text, and yet the detected map is unchanged — the claim would require
the entry to be overwritten with a detection whose detected_by is "html". -/
theorem matcher_overwrite_counterexample :
    matchHTML
        { matcher := { htmlPatterns := [{ pattern := fun s => some [s],
                                          patternStr := "(?i)bodytext",
                                          appName := "App", commands := [] }] },
          jsExtract := fun _ => [] }
        { scriptSrcs := [], metaContent := [], inlineScripts := [], inlineCSS := [],
          visibleText := "bodytext", title := "", findCount := fun _ => 0 }
        [("App", { version := "", detectedBy := "header:Server",
                   matchedPattern := "(?i)nginx", matchedValue := "nginx",
                   confidence := ConfidenceLevel.high })] =
      [("App", { version := "", detectedBy := "header:Server",
                 matchedPattern := "(?i)nginx", matchedValue := "nginx",
                 confidence := ConfidenceLevel.high })] ∧
    ((fun s => some [s] : GoRegex) "bodytext").isSome = true ∧
    "header:Server" ≠ "html" := by
  refine ⟨rfl, rfl, by decide⟩

/-- C2 (amended).  Write semantics of the matchers: the URL, robots, DNS,
certIssuer, DOM, header, cookie, scriptSrc, meta and JS matchers equal the
application of a write sequence that does not depend on the incoming detected
map, so on a successful submatch they record the new Detection and the last
write for an application wins over any prior detection from an earlier vector;
looking up an application after a write sequence returns its last write,
regardless of what was detected before.  The inline-script, HTML and CSS
matchers instead preserve any existing entry for an application (first
detection wins for those vectors). -/
theorem matcher_write_semantics :
    (∀ (k : KitsuneM) (data : AnalysisData) (d : DMap),
        matchURL k data d = applyWrites (urlWrites k data) d ∧
        matchRobots k data d = applyWrites (robotsWrites k data) d ∧
        matchDNS k data d = applyWrites (dnsWrites k data) d ∧
        matchCertIssuer k data d = applyWrites (certIssuerWrites k data) d ∧
        matchDOM k data d = applyWrites (domWrites k data) d) ∧
    (∀ (k : KitsuneM) (headers : List (String × List String)) (d : DMap),
        matchHeaders k headers d = applyWrites (headersWrites k headers) d ∧
        matchCookies k headers d =
          applyWrites (cookiesWrites k (parsedCookiesFromPairs (rawCookiePairs headers))) d) ∧
    (∀ (k : KitsuneM) (pd : PageData) (d : DMap),
        matchScriptSrc k pd d = applyWrites (scriptSrcWrites k pd) d ∧
        matchMeta k pd d = applyWrites (metaWrites k pd) d ∧
        matchJS k pd d = applyWrites (jsWrites k pd) d) ∧
    (∀ (ws : List (String × Detection)) (d : DMap) (a : String),
        mapLookup (applyWrites ws d) a =
          match lastWrite ws a with
          | some x => some x
          | none => mapLookup d a) ∧
    (∀ (k : KitsuneM) (pd : PageData) (d : DMap) (a : String) (x : Detection),
        mapLookup d a = some x →
          mapLookup (matchScript k pd d) a = some x ∧
          mapLookup (matchHTML k pd d) a = some x ∧
          mapLookup (matchCSS k pd d) a = some x) := by
  refine ⟨?_, ?_, ?_, ?_, ?_⟩
  · intro k data d
    exact ⟨matchURL_eq_applyWrites k data d, matchRobots_eq_applyWrites k data d,
      matchDNS_eq_applyWrites k data d, matchCertIssuer_eq_applyWrites k data d,
      matchDOM_eq_applyWrites k data d⟩
  · intro k headers d
    exact ⟨matchHeaders_eq_applyWrites k headers d, matchCookies_eq_applyWrites k headers d⟩
  · intro k pd d
    exact ⟨matchScriptSrc_eq_applyWrites k pd d, matchMeta_eq_applyWrites k pd d,
      matchJS_eq_applyWrites k pd d⟩
  · intro ws d a
    exact mapLookup_applyWrites ws d a
  · intro k pd d a x h
    exact ⟨matchScript_preserves k pd d a x h, matchHTML_preserves k pd d a x h,
      matchCSS_preserves k pd d a x h⟩

/-- Witness for the amended C2 at a concrete input: a prior detection survives
the three guarded matchers unchanged. -/
theorem matcher_write_semantics_witness :
    mapLookup
        (matchScript
          { matcher := { scriptPatterns := [{ pattern := fun s => some [s],
                                              patternStr := "(?i)x",
                                              appName := "App", commands := [] }] },
            jsExtract := fun _ => [] }
          { scriptSrcs := [], metaContent := [], inlineScripts := ["x"], inlineCSS := [],
            visibleText := "", title := "", findCount := fun _ => 0 }
          [("App", { version := "", detectedBy := "header:Server",
                     matchedPattern := "", matchedValue := "",
                     confidence := ConfidenceLevel.high })]) "App" =
      some { version := "", detectedBy := "header:Server",
             matchedPattern := "", matchedValue := "",
             confidence := ConfidenceLevel.high } :=
  (matcher_write_semantics.2.2.2.2
    { matcher := { scriptPatterns := [{ pattern := fun s => some [s],
                                        patternStr := "(?i)x",
                                        appName := "App", commands := [] }] },
      jsExtract := fun _ => [] }
    { scriptSrcs := [], metaContent := [], inlineScripts := ["x"], inlineCSS := [],
      visibleText := "", title := "", findCount := fun _ => 0 }
    [("App", { version := "", detectedBy := "header:Server",
               matchedPattern := "", matchedValue := "",
               confidence := ConfidenceLevel.high })] "App"
    { version := "", detectedBy := "header:Server",
      matchedPattern := "", matchedValue := "",
      confidence := ConfidenceLevel.high } (by decide)).1

/-! ## Case-insensitivity of header, cookie and meta names -/

theorem isWhitespace_lowerChar (c : Char) :
    (lowerChar c).isWhitespace = c.isWhitespace := by
  unfold lowerChar
  split <;> rfl

theorem dropWhile_isWhitespace_map_lowerChar (l : List Char) :
    (l.map lowerChar).dropWhile Char.isWhitespace =
      (l.dropWhile Char.isWhitespace).map lowerChar := by
  induction l with
  | nil => rfl
  | cons c rest ih =>
    simp only [List.map_cons, List.dropWhile_cons, isWhitespace_lowerChar]
    by_cases h : c.isWhitespace
    · simp [h, ih]
    · simp [h]

theorem trimSpace_map_lowerChar (l : List Char) :
    trimSpace (l.map lowerChar) = (trimSpace l).map lowerChar := by
  unfold trimSpace
  rw [dropWhile_isWhitespace_map_lowerChar, ← List.map_reverse,
    dropWhile_isWhitespace_map_lowerChar, ← List.map_reverse]

theorem lowerStr_trimStr (s : String) :
    lowerStr (trimStr s) = trimStr (lowerStr s) := by
  unfold lowerStr trimStr
  simp [trimSpace_map_lowerChar]

theorem mapKeys_mapInsert {α : Type} (m : List (String × α)) (a : String) (x : α) :
    mapKeys (mapInsert m a x) =
      if a ∈ mapKeys m then mapKeys m else mapKeys m ++ [a] := by
  induction m with
  | nil => simp [mapInsert, mapKeys]
  | cons p rest ih =>
    by_cases h : p.1 = a
    · simp [mapInsert, h, mapKeys]
    · simp only [mapInsert, h, if_false, mapKeys, List.map_cons]
      by_cases hm : a ∈ mapKeys rest
      · simp only [mapKeys] at hm ih
        simp [hm, ih, List.mem_cons, Ne.symm h]
      · simp only [mapKeys] at hm ih
        simp [hm, ih, List.mem_cons, Ne.symm h]

theorem mapKeys_mapInsert_congr {α β : Type} (d₁ : List (String × α))
    (d₂ : List (String × β)) (a : String) (x : α) (y : β)
    (h : mapKeys d₁ = mapKeys d₂) :
    mapKeys (mapInsert d₁ a x) = mapKeys (mapInsert d₂ a y) := by
  rw [mapKeys_mapInsert, mapKeys_mapInsert, h]

theorem mapKeys_applyWrites_congr :
    ∀ (ws₁ ws₂ : List (String × Detection)) (d₁ d₂ : DMap),
      ws₁.map Prod.fst = ws₂.map Prod.fst → mapKeys d₁ = mapKeys d₂ →
      mapKeys (applyWrites ws₁ d₁) = mapKeys (applyWrites ws₂ d₂) := by
  intro ws₁
  induction ws₁ with
  | nil =>
    intro ws₂ d₁ d₂ hw hd
    have : ws₂ = [] := by
      cases ws₂ with
      | nil => rfl
      | cons p rest => simp at hw
    subst this
    exact hd
  | cons p rest ih =>
    intro ws₂ d₁ d₂ hw hd
    cases ws₂ with
    | nil => simp at hw
    | cons q rest₂ =>
      simp only [List.map_cons, List.cons.injEq] at hw
      rw [applyWrites_cons, applyWrites_cons]
      apply ih rest₂ _ _ hw.2
      rw [hw.1] at *
      exact mapKeys_mapInsert_congr d₁ d₂ q.1 p.2 q.2 hd

theorem filterMap_fst_congr {β : Type} (f₁ f₂ : β → Option (String × Detection))
    (l : List β) (h : ∀ b ∈ l, (f₁ b).map Prod.fst = (f₂ b).map Prod.fst) :
    (l.filterMap f₁).map Prod.fst = (l.filterMap f₂).map Prod.fst := by
  induction l with
  | nil => rfl
  | cons b rest ih =>
    have hb := h b (List.mem_cons_self b rest)
    have hrest := ih (fun b' hb' => h b' (List.mem_cons_of_mem b hb'))
    simp only [List.filterMap_cons]
    cases h1 : f₁ b with
    | none =>
      rw [h1] at hb
      simp only [Option.map_none'] at hb
      cases h2 : f₂ b with
      | none => exact hrest
      | some q => rw [h2] at hb; simp at hb
    | some p =>
      rw [h1] at hb
      simp only [Option.map_some'] at hb
      cases h2 : f₂ b with
      | none => rw [h2] at hb; simp at hb
      | some q =>
        rw [h2] at hb
        simp only [Option.map_some', Option.some.injEq] at hb
        simp only [List.map_cons, hrest, hb]

theorem headersWrites_fst_congr (k : KitsuneM) (h₁ h₂ : List (String × List String))
    (hrel : KeysCaseEq h₁ h₂) :
    (headersWrites k h₁).map Prod.fst = (headersWrites k h₂).map Prod.fst := by
  unfold headersWrites
  induction hrel with
  | nil => rfl
  | @cons p q rest₁ rest₂ hpq _ ih =>
    simp only [List.flatMap_cons, List.map_append]
    rw [ih]
    congr 1
    rw [hpq.1, hpq.2]
    cases hl : mapLookup k.matcher.headerPatterns (lowerStr q.1) with
    | none => rfl
    | some patterns =>
      exact filterMap_fst_congr _ _ _ (fun pi _ => by
        cases hf : q.2.findSome? pi.pattern <;> simp [hf])

theorem metaWrites_fst_congr (k : KitsuneM) (pd₁ pd₂ : PageData)
    (hrel : KeysCaseEq pd₁.metaContent pd₂.metaContent) :
    (metaWrites k pd₁).map Prod.fst = (metaWrites k pd₂).map Prod.fst := by
  unfold metaWrites
  revert hrel
  generalize pd₁.metaContent = m₁
  generalize pd₂.metaContent = m₂
  intro hrel
  induction hrel with
  | nil => rfl
  | @cons p q rest₁ rest₂ hpq _ ih =>
    simp only [List.flatMap_cons, List.map_append]
    rw [ih]
    congr 1
    rw [hpq.1, hpq.2]
    cases hl : mapLookup k.matcher.metaPatterns (lowerStr q.1) with
    | none => rfl
    | some patterns =>
      exact filterMap_fst_congr _ _ _ (fun pi _ => by
        cases hf : q.2.findSome? pi.pattern <;> simp [hf])

theorem parsedCookiesFromPairs_congr_aux :
    ∀ (p₁ p₂ : List (String × String)), KeysCaseEq p₁ p₂ →
      ∀ acc : List (String × String),
        p₁.foldl (fun m c => mapInsert m (lowerStr (trimStr c.1)) c.2) acc =
        p₂.foldl (fun m c => mapInsert m (lowerStr (trimStr c.1)) c.2) acc := by
  intro p₁ p₂ hrel
  induction hrel with
  | nil => intro acc; rfl
  | @cons p q rest₁ rest₂ hpq _ ih =>
    intro acc
    simp only [List.foldl_cons]
    have hk : lowerStr (trimStr p.1) = lowerStr (trimStr q.1) := by
      rw [lowerStr_trimStr, lowerStr_trimStr, hpq.1]
    rw [hk, hpq.2]
    exact ih _

theorem buildNamed_lower_congr (compile : String → Option GoRegex) (appName : String) :
    ∀ (e₁ e₂ : List (String × ParsedPattern)), KeysCaseEq e₁ e₂ →
      ∀ acc, buildNamed compile appName lowerStr e₁ acc =
        buildNamed compile appName lowerStr e₂ acc := by
  intro e₁ e₂ hrel
  unfold buildNamed
  induction hrel with
  | nil => intro acc; rfl
  | @cons p q rest₁ rest₂ hpq _ ih =>
    intro acc
    simp only [List.foldl_cons]
    rw [hpq.2]
    cases hc : compile ("(?i)" ++ q.2.regex) with
    | none => exact ih acc
    | some re =>
      rw [hpq.1]
      exact ih _

theorem buildMeta_congr (compile : String → Option GoRegex) (appName : String) :
    ∀ (m₁ m₂ : List (String × List ParsedPattern)), KeysCaseEq m₁ m₂ →
      ∀ acc, buildMeta compile appName m₁ acc = buildMeta compile appName m₂ acc := by
  intro m₁ m₂ hrel
  unfold buildMeta
  induction hrel with
  | nil => intro acc; rfl
  | @cons p q rest₁ rest₂ hpq _ ih =>
    intro acc
    simp only [List.foldl_cons]
    rw [hpq.2, hpq.1]
    exact ih _

/-- C8.  Case-insensitivity of names: matchHeaders and matchMeta produce the
same set of detected technologies when the response's header or meta names
are respelled in any letter case; the parsed cookie map — and with it the
whole cookie matcher — is identical under any respelling of cookie names; and
on the database side, the header/cookie maps (buildNamed with the lower-case
key transform) and the meta map of the built matcher are identical when the
fingerprint keys are respelled in any letter case. -/
theorem name_case_insensitivity :
    (∀ (k : KitsuneM) (h₁ h₂ : List (String × List String)) (d : DMap),
        KeysCaseEq h₁ h₂ →
        mapKeys (matchHeaders k h₁ d) = mapKeys (matchHeaders k h₂ d)) ∧
    (∀ (k : KitsuneM) (pd₁ pd₂ : PageData) (d : DMap),
        KeysCaseEq pd₁.metaContent pd₂.metaContent →
        mapKeys (matchMeta k pd₁ d) = mapKeys (matchMeta k pd₂ d)) ∧
    (∀ (pairs₁ pairs₂ : List (String × String)), KeysCaseEq pairs₁ pairs₂ →
        parsedCookiesFromPairs pairs₁ = parsedCookiesFromPairs pairs₂ ∧
        ∀ (k : KitsuneM) (d : DMap),
          processParsedCookies k (parsedCookiesFromPairs pairs₁) d =
            processParsedCookies k (parsedCookiesFromPairs pairs₂) d) ∧
    (∀ (compile : String → Option GoRegex) (appName : String)
        (e₁ e₂ : List (String × ParsedPattern))
        (acc : List (String × List PatternInfo)), KeysCaseEq e₁ e₂ →
        buildNamed compile appName lowerStr e₁ acc =
          buildNamed compile appName lowerStr e₂ acc) ∧
    (∀ (compile : String → Option GoRegex) (appName : String)
        (m₁ m₂ : List (String × List ParsedPattern))
        (acc : List (String × List PatternInfo)), KeysCaseEq m₁ m₂ →
        buildMeta compile appName m₁ acc = buildMeta compile appName m₂ acc) := by
  refine ⟨?_, ?_, ?_, ?_, ?_⟩
  · intro k h₁ h₂ d hrel
    rw [matchHeaders_eq_applyWrites, matchHeaders_eq_applyWrites]
    exact mapKeys_applyWrites_congr _ _ d d
      (headersWrites_fst_congr k h₁ h₂ hrel) rfl
  · intro k pd₁ pd₂ d hrel
    rw [matchMeta_eq_applyWrites, matchMeta_eq_applyWrites]
    exact mapKeys_applyWrites_congr _ _ d d
      (metaWrites_fst_congr k pd₁ pd₂ hrel) rfl
  · intro pairs₁ pairs₂ hrel
    have heq : parsedCookiesFromPairs pairs₁ = parsedCookiesFromPairs pairs₂ :=
      parsedCookiesFromPairs_congr_aux pairs₁ pairs₂ hrel []
    exact ⟨heq, fun k d => by rw [heq]⟩
  · intro compile appName e₁ e₂ acc hrel
    exact buildNamed_lower_congr compile appName e₁ e₂ hrel acc
  · intro compile appName m₁ m₂ acc hrel
    exact buildMeta_congr compile appName m₁ m₂ hrel acc

/-- Witness for C8: a mixed-case respelling of the header name Server yields
the same detected set at a concrete matcher. -/
theorem name_case_insensitivity_witness :
    mapKeys (matchHeaders
      { matcher := { headerPatterns := [("server",
          [{ pattern := fun s => if s = "nginx" then some ["nginx"] else none,
             patternStr := "(?i)nginx", appName := "Nginx", commands := [] }])] },
        jsExtract := fun _ => [] }
      [("Server", ["nginx"])] []) =
    mapKeys (matchHeaders
      { matcher := { headerPatterns := [("server",
          [{ pattern := fun s => if s = "nginx" then some ["nginx"] else none,
             patternStr := "(?i)nginx", appName := "Nginx", commands := [] }])] },
        jsExtract := fun _ => [] }
      [("SERVER", ["nginx"])] []) :=
  name_case_insensitivity.1 _ [("Server", ["nginx"])] [("SERVER", ["nginx"])] []
    (List.Forall₂.cons ⟨by decide, rfl⟩ List.Forall₂.nil)

/-! ## Analysis fatality (FingerprintURL) -/

/-- C3.  Analysis fatality: FingerprintURL returns no detections together
with an error exactly when the main page fetch or the DNS step failed; when
only the robots fetch failed the computed detected map (matchers followed by
the implies engine) is returned together with the aggregated error, whose
message names the robots failure. -/
theorem analysis_fatality (k : KitsuneM) (apps : Apps) (data : AnalysisData)
    (e : AnalysisErrorM) :
    (((fingerprintURL k apps data e).1 = none ∧
        (fingerprintURL k apps data e).2.isSome) ↔
      (e.mainPageErr.isSome ∨ e.dnsErr.isSome)) ∧
    (∀ r : String, e.mainPageErr = none → e.dnsErr = none → e.robotsErr = some r →
      fingerprintURL k apps data e =
        (some (runImpliesEngine apps (runAllMatchers k data [])), some e) ∧
      e.message = "analysis failed: robots.txt fetch failed: " ++ r) := by
  constructor
  · by_cases hf : e.isFatal
    · have hf' : e.mainPageErr.isSome ∨ e.dnsErr.isSome := by
        unfold AnalysisErrorM.isFatal at hf
        rcases Bool.or_eq_true _ _ |>.mp hf with h | h
        · exact Or.inl h
        · exact Or.inr h
      simp only [fingerprintURL, if_pos hf]
      simp [hf']
    · have hf' : ¬ (e.mainPageErr.isSome ∨ e.dnsErr.isSome) := by
        unfold AnalysisErrorM.isFatal at hf
        intro hc
        apply hf
        rcases hc with h | h
        · exact Bool.or_eq_true _ _ |>.mpr (Or.inl h)
        · exact Bool.or_eq_true _ _ |>.mpr (Or.inr h)
      simp only [fingerprintURL, if_neg hf]
      by_cases hr : e.robotsErr.isSome
      · simp [hr, hf']
      · simp [hr, hf']
  · intro r hm hd hr
    have hnf : ¬ e.isFatal := by
      unfold AnalysisErrorM.isFatal
      simp [hm, hd]
    constructor
    · simp only [fingerprintURL, if_neg hnf, hr]
      simp
    · unfold AnalysisErrorM.message
      rw [hm, hd, hr]
      simp only [List.nil_append]
      rw [show ["robots.txt fetch failed: " ++ r].isEmpty = false from rfl]
      simp only [Bool.false_eq_true, if_false, joinSep]
      rw [← String.append_assoc]
      rfl

/-- Witness for C3 at concrete error outcomes: a robots-only failure returns
the computed detections plus the aggregated error, with the robots message. -/
theorem analysis_fatality_witness :
    (fingerprintURL
        { matcher := {}, jsExtract := fun _ => [] } []
        { targetURL := "https://example.com", mainHeaders := none,
          robotsContent := none, dnsRecords := [], certIssuer := "",
          pageData := none }
        { mainPageErr := none, robotsErr := some "connection refused",
          dnsErr := none } =
      (some (runImpliesEngine []
        (runAllMatchers { matcher := {}, jsExtract := fun _ => [] }
          { targetURL := "https://example.com", mainHeaders := none,
            robotsContent := none, dnsRecords := [], certIssuer := "",
            pageData := none } [])),
       some { mainPageErr := none, robotsErr := some "connection refused",
              dnsErr := none })) ∧
    AnalysisErrorM.message
        { mainPageErr := none, robotsErr := some "connection refused",
          dnsErr := none } =
      "analysis failed: robots.txt fetch failed: " ++ "connection refused" :=
  (analysis_fatality { matcher := {}, jsExtract := fun _ => [] } []
    { targetURL := "https://example.com", mainHeaders := none,
      robotsContent := none, dnsRecords := [], certIssuer := "",
      pageData := none }
    { mainPageErr := none, robotsErr := some "connection refused",
      dnsErr := none }).2 "connection refused" rfl rfl rfl

/-! ## Context isolation: DOM extraction lemmas -/

theorem textContentList_removeComments : ∀ l : List HNode,
    textContentList (removeComments l) = textContentList l
  | [] => by simp [removeComments]
  | .element tag attrs children :: rest => by
    simp only [removeComments, textContentList,
      textContentList_removeComments children, textContentList_removeComments rest]
  | .text s :: rest => by
    simp only [removeComments, textContentList, textContentList_removeComments rest]
  | .comment s :: rest => by
    simp only [removeComments, textContentList, textContentList_removeComments rest]

theorem scriptSrcsOf_removeComments : ∀ l : List HNode,
    scriptSrcsOf (removeComments l) = scriptSrcsOf l
  | [] => by simp [removeComments]
  | .element tag attrs children :: rest => by
    simp only [removeComments, scriptSrcsOf,
      scriptSrcsOf_removeComments children, scriptSrcsOf_removeComments rest]
  | .text s :: rest => by
    simp only [removeComments, scriptSrcsOf, scriptSrcsOf_removeComments rest]
  | .comment s :: rest => by
    simp only [removeComments, scriptSrcsOf, scriptSrcsOf_removeComments rest]

theorem inlineScriptsOf_removeComments : ∀ l : List HNode,
    inlineScriptsOf (removeComments l) = inlineScriptsOf l
  | [] => by simp [removeComments]
  | .element tag attrs children :: rest => by
    simp only [removeComments, inlineScriptsOf, textContentList_removeComments children,
      inlineScriptsOf_removeComments children, inlineScriptsOf_removeComments rest]
  | .text s :: rest => by
    simp only [removeComments, inlineScriptsOf, inlineScriptsOf_removeComments rest]
  | .comment s :: rest => by
    simp only [removeComments, inlineScriptsOf, inlineScriptsOf_removeComments rest]

theorem inlineCSSOf_removeComments : ∀ l : List HNode,
    inlineCSSOf (removeComments l) = inlineCSSOf l
  | [] => by simp [removeComments]
  | .element tag attrs children :: rest => by
    simp only [removeComments, inlineCSSOf, textContentList_removeComments children,
      inlineCSSOf_removeComments children, inlineCSSOf_removeComments rest]
  | .text s :: rest => by
    simp only [removeComments, inlineCSSOf, inlineCSSOf_removeComments rest]
  | .comment s :: rest => by
    simp only [removeComments, inlineCSSOf, inlineCSSOf_removeComments rest]

theorem metaPairsOf_removeComments : ∀ l : List HNode,
    metaPairsOf (removeComments l) = metaPairsOf l
  | [] => by simp [removeComments]
  | .element tag attrs children :: rest => by
    simp only [removeComments, metaPairsOf,
      metaPairsOf_removeComments children, metaPairsOf_removeComments rest]
  | .text s :: rest => by
    simp only [removeComments, metaPairsOf, metaPairsOf_removeComments rest]
  | .comment s :: rest => by
    simp only [removeComments, metaPairsOf, metaPairsOf_removeComments rest]

theorem titlesOf_removeComments : ∀ l : List HNode,
    titlesOf (removeComments l) = titlesOf l
  | [] => by simp [removeComments]
  | .element tag attrs children :: rest => by
    simp only [removeComments, titlesOf, textContentList_removeComments children,
      titlesOf_removeComments children, titlesOf_removeComments rest]
  | .text s :: rest => by
    simp only [removeComments, titlesOf, titlesOf_removeComments rest]
  | .comment s :: rest => by
    simp only [removeComments, titlesOf, titlesOf_removeComments rest]

theorem directText_removeComments : ∀ l : List HNode,
    directText (removeComments l) = directText l
  | [] => by simp [removeComments]
  | .element tag attrs children :: rest => by
    simp only [removeComments, directText, directText_removeComments rest]
  | .text s :: rest => by
    simp only [removeComments, directText, directText_removeComments rest]
  | .comment s :: rest => by
    simp only [removeComments, directText, directText_removeComments rest]

theorem bodyTextsOf_removeComments : ∀ l : List HNode,
    bodyTextsOf (removeComments l) = bodyTextsOf l
  | [] => by simp [removeComments]
  | .element tag attrs children :: rest => by
    simp only [removeComments, bodyTextsOf, directText_removeComments children,
      bodyTextsOf_removeComments children, bodyTextsOf_removeComments rest]
  | .text s :: rest => by
    simp only [removeComments, bodyTextsOf, bodyTextsOf_removeComments rest]
  | .comment s :: rest => by
    simp only [removeComments, bodyTextsOf, bodyTextsOf_removeComments rest]

theorem metaContentOf_removeComments (doc : List HNode) :
    metaContentOf (removeComments doc) = metaContentOf doc := by
  unfold metaContentOf
  rw [metaPairsOf_removeComments]

theorem visibleTextOf_removeComments (doc : List HNode) :
    visibleTextOf (removeComments doc) = visibleTextOf doc := by
  unfold visibleTextOf
  rw [bodyTextsOf_removeComments]

theorem titleOf_removeComments (doc : List HNode) :
    titleOf (removeComments doc) = titleOf doc := by
  unfold titleOf
  rw [titlesOf_removeComments]

theorem collectDataFromDOM_removeComments (doc : List HNode) (fc : String → Nat) :
    collectDataFromDOM (removeComments doc) fc = collectDataFromDOM doc fc := by
  unfold collectDataFromDOM
  rw [scriptSrcsOf_removeComments, metaContentOf_removeComments,
    inlineScriptsOf_removeComments, inlineCSSOf_removeComments,
    visibleTextOf_removeComments, titleOf_removeComments]

/-! ### Membership characterisation of the inline-script extraction -/

theorem mem_inlineScriptsOf_of_isInlineScriptText (doc : List HNode) (s : String)
    (h : IsInlineScriptText doc s) : s ∈ inlineScriptsOf doc := by
  induction h with
  | here tag attrs children rest htag hsrc =>
    simp only [inlineScriptsOf]
    rw [if_pos ⟨htag, hsrc⟩]
    simp
  | inChildren tag attrs children rest s _ ih =>
    simp only [inlineScriptsOf]
    rw [List.mem_append, List.mem_append]
    exact Or.inl (Or.inr ih)
  | inRest n rest s _ ih =>
    cases n with
    | element tag attrs children =>
      simp only [inlineScriptsOf]
      rw [List.mem_append]
      exact Or.inr ih
    | text t =>
      simp only [inlineScriptsOf]
      exact ih
    | comment t =>
      simp only [inlineScriptsOf]
      exact ih

theorem isInlineScriptText_of_mem_inlineScriptsOf : ∀ (doc : List HNode) (s : String),
    s ∈ inlineScriptsOf doc → IsInlineScriptText doc s
  | [], s => by simp [inlineScriptsOf]
  | .element tag attrs children :: rest, s => by
    intro h
    simp only [inlineScriptsOf, List.mem_append] at h
    rcases h with (h | h) | h
    · by_cases hcond : tag = "script" ∧ attrOf attrs "src" = none
      · rw [if_pos hcond] at h
        simp only [List.mem_singleton] at h
        subst h
        exact IsInlineScriptText.here tag attrs children rest hcond.1 hcond.2
      · rw [if_neg hcond] at h
        simp at h
    · exact IsInlineScriptText.inChildren tag attrs children rest s
        (isInlineScriptText_of_mem_inlineScriptsOf children s h)
    · exact IsInlineScriptText.inRest _ rest s
        (isInlineScriptText_of_mem_inlineScriptsOf rest s h)
  | .text t :: rest, s => by
    intro h
    simp only [inlineScriptsOf] at h
    exact IsInlineScriptText.inRest _ rest s
      (isInlineScriptText_of_mem_inlineScriptsOf rest s h)
  | .comment t :: rest, s => by
    intro h
    simp only [inlineScriptsOf] at h
    exact IsInlineScriptText.inRest _ rest s
      (isInlineScriptText_of_mem_inlineScriptsOf rest s h)

/-! ### Visible text ignores script and style content -/

theorem directText_clearTags (tags : List String) : ∀ l : List HNode,
    directText (clearTags tags l) = directText l
  | [] => by simp [clearTags]
  | .element tag attrs children :: rest => by
    by_cases h : tag ∈ tags
    · simp only [clearTags, if_pos h, directText, directText_clearTags tags rest]
    · simp only [clearTags, if_neg h, directText, directText_clearTags tags rest]
  | .text s :: rest => by
    simp only [clearTags, directText, directText_clearTags tags rest]
  | .comment s :: rest => by
    simp only [clearTags, directText, directText_clearTags tags rest]

theorem bodyTextsOf_nil_of_no_body : ∀ l : List HNode,
    containsTag "body" l = false → bodyTextsOf l = []
  | [] => fun _ => by simp [bodyTextsOf]
  | .element t a children :: rest => fun h => by
    simp only [containsTag, Bool.or_eq_false_iff, decide_eq_false_iff_not] at h
    obtain ⟨⟨ht, hchildren⟩, hrest⟩ := h
    simp only [bodyTextsOf, if_neg ht,
      bodyTextsOf_nil_of_no_body children hchildren,
      bodyTextsOf_nil_of_no_body rest hrest]
    rfl
  | .text s :: rest => fun h => by
    simp only [containsTag] at h
    simp only [bodyTextsOf, bodyTextsOf_nil_of_no_body rest h]
  | .comment s :: rest => fun h => by
    simp only [containsTag] at h
    simp only [bodyTextsOf, bodyTextsOf_nil_of_no_body rest h]

theorem bodyTextsOf_clearTags : ∀ l : List HNode, scriptStyleBodyFree l = true →
    bodyTextsOf (clearTags ["script", "style"] l) = bodyTextsOf l
  | [] => fun _ => by simp [clearTags]
  | .element tag attrs children :: rest => fun h => by
    simp only [scriptStyleBodyFree, Bool.and_eq_true] at h
    obtain ⟨⟨hgate, hchildren⟩, hrest⟩ := h
    by_cases ht : tag ∈ ["script", "style"]
    · have htag : tag = "script" ∨ tag = "style" := by simpa using ht
      have hnb : containsTag "body" children = false := by
        rw [if_pos htag] at hgate
        simpa using hgate
      have htagne : ¬ tag = "body" := by
        rcases htag with h' | h' <;> simp [h']
      simp only [clearTags, if_pos ht, bodyTextsOf, if_neg htagne,
        bodyTextsOf_nil_of_no_body children hnb,
        bodyTextsOf_clearTags rest hrest]
    · simp only [clearTags, if_neg ht, bodyTextsOf, directText_clearTags,
        bodyTextsOf_clearTags children hchildren, bodyTextsOf_clearTags rest hrest]
  | .text s :: rest => fun h => by
    simp only [scriptStyleBodyFree] at h
    simp only [clearTags, bodyTextsOf, bodyTextsOf_clearTags rest h]
  | .comment s :: rest => fun h => by
    simp only [scriptStyleBodyFree] at h
    simp only [clearTags, bodyTextsOf, bodyTextsOf_clearTags rest h]

theorem visibleTextOf_clearTags (doc : List HNode)
    (h : scriptStyleBodyFree doc = true) :
    visibleTextOf (clearTags ["script", "style"] doc) = visibleTextOf doc := by
  unfold visibleTextOf
  rw [bodyTextsOf_clearTags doc h]

/-! ### What the guarded matchers can detect -/

theorem mem_of_findSome? {α β : Type} (f : α → Option β) :
    ∀ (l : List α) (b : β), l.findSome? f = some b → ∃ x ∈ l, f x = some b := by
  intro l
  induction l with
  | nil => intro b h; simp [List.findSome?] at h
  | cons x rest ih =>
    intro b h
    rw [List.findSome?_cons] at h
    cases hx : f x with
    | some y =>
      rw [hx] at h
      cases h
      exact ⟨x, List.mem_cons_self x rest, hx⟩
    | none =>
      rw [hx] at h
      obtain ⟨x', hmem, hfx⟩ := ih b h
      exact ⟨x', List.mem_cons_of_mem x hmem, hfx⟩

theorem matchScript_mem_keys (k : KitsuneM) (pd : PageData) :
    ∀ (d : DMap) (a : String), a ∈ mapKeys (matchScript k pd d) →
      a ∈ mapKeys d ∨ ∃ pi ∈ k.matcher.scriptPatterns, pi.appName = a ∧
        ∃ s ∈ pd.inlineScripts, (pi.pattern s).isSome := by
  unfold matchScript
  induction k.matcher.scriptPatterns with
  | nil => intro d a h; exact Or.inl h
  | cons pi rest ih =>
    intro d a h
    simp only [List.foldl_cons] at h
    have weaken : (a ∈ mapKeys d ∨ ∃ pi' ∈ rest, pi'.appName = a ∧
        ∃ s ∈ pd.inlineScripts, (pi'.pattern s).isSome) →
        a ∈ mapKeys d ∨ ∃ pi' ∈ pi :: rest, pi'.appName = a ∧
          ∃ s ∈ pd.inlineScripts, (pi'.pattern s).isSome := by
      rintro (h' | ⟨pi', hmem, hrest⟩)
      · exact Or.inl h'
      · exact Or.inr ⟨pi', List.mem_cons_of_mem pi hmem, hrest⟩
    cases hl : mapLookup d pi.appName with
    | some y =>
      rw [hl] at h
      exact weaken (ih d a h)
    | none =>
      rw [hl] at h
      cases hm : pd.inlineScripts.findSome? pi.pattern with
      | none =>
        rw [hm] at h
        exact weaken (ih d a h)
      | some subs =>
        rw [hm] at h
        rcases ih _ a h with h' | ⟨pi', hmem, hrest⟩
        · rw [mapKeys_mapInsert] at h'
          by_cases hin : pi.appName ∈ mapKeys d
          · rw [if_pos hin] at h'
            exact Or.inl h'
          · rw [if_neg hin] at h'
            rcases List.mem_append.mp h' with h'' | h''
            · exact Or.inl h''
            · have ha : a = pi.appName := by simpa using h''
              obtain ⟨s, hsmem, hfs⟩ := mem_of_findSome? pi.pattern pd.inlineScripts subs hm
              exact Or.inr ⟨pi, List.mem_cons_self pi rest,
                ha.symm, s, hsmem, by rw [hfs]; rfl⟩
        · exact Or.inr ⟨pi', List.mem_cons_of_mem pi hmem, hrest⟩

theorem matchHTML_mem_keys (k : KitsuneM) (pd : PageData) :
    ∀ (d : DMap) (a : String), a ∈ mapKeys (matchHTML k pd d) →
      a ∈ mapKeys d ∨ ∃ pi ∈ k.matcher.htmlPatterns, pi.appName = a ∧
        (pi.pattern pd.visibleText).isSome := by
  unfold matchHTML
  induction k.matcher.htmlPatterns with
  | nil => intro d a h; exact Or.inl h
  | cons pi rest ih =>
    intro d a h
    simp only [List.foldl_cons] at h
    have weaken : (a ∈ mapKeys d ∨ ∃ pi' ∈ rest, pi'.appName = a ∧
        (pi'.pattern pd.visibleText).isSome) →
        a ∈ mapKeys d ∨ ∃ pi' ∈ pi :: rest, pi'.appName = a ∧
          (pi'.pattern pd.visibleText).isSome := by
      rintro (h' | ⟨pi', hmem, hrest⟩)
      · exact Or.inl h'
      · exact Or.inr ⟨pi', List.mem_cons_of_mem pi hmem, hrest⟩
    cases hl : mapLookup d pi.appName with
    | some y =>
      rw [hl] at h
      exact weaken (ih d a h)
    | none =>
      rw [hl] at h
      cases hm : pi.pattern pd.visibleText with
      | none =>
        rw [hm] at h
        exact weaken (ih d a h)
      | some subs =>
        rw [hm] at h
        rcases ih _ a h with h' | ⟨pi', hmem, hrest⟩
        · rw [mapKeys_mapInsert] at h'
          by_cases hin : pi.appName ∈ mapKeys d
          · rw [if_pos hin] at h'
            exact Or.inl h'
          · rw [if_neg hin] at h'
            rcases List.mem_append.mp h' with h'' | h''
            · exact Or.inl h''
            · have ha : a = pi.appName := by simpa using h''
              exact Or.inr ⟨pi, List.mem_cons_self pi rest,
                ha.symm, by rw [hm]; rfl⟩
        · exact Or.inr ⟨pi', List.mem_cons_of_mem pi hmem, hrest⟩

/-- C4.  Context isolation: the DOM extraction ignores comment nodes
entirely; the inline-script input of the script matcher is exactly the text
content of the `<script>` elements without a src attribute; any detection the
script matcher adds comes from a pattern matching one of those inline-script
texts, and any detection the HTML matcher adds comes from a pattern matching
the extracted visible text — so a literal present only inside an HTML comment
or outside every `<script>` element yields no script detection, a literal
absent from the visible body text yields no HTML detection, and the visible
text is unchanged when all script and style content is emptied. -/
theorem context_isolation :
    (∀ (doc : List HNode) (fc : String → Nat),
        collectDataFromDOM (removeComments doc) fc = collectDataFromDOM doc fc) ∧
    (∀ (doc : List HNode) (fc : String → Nat),
        (collectDataFromDOM doc fc).inlineScripts = inlineScriptsOf doc ∧
        (collectDataFromDOM doc fc).visibleText = visibleTextOf doc) ∧
    (∀ (doc : List HNode) (s : String),
        s ∈ inlineScriptsOf doc ↔ IsInlineScriptText doc s) ∧
    (∀ (k : KitsuneM) (pd : PageData) (d : DMap) (a : String),
        a ∈ mapKeys (matchScript k pd d) →
        a ∈ mapKeys d ∨ ∃ pi ∈ k.matcher.scriptPatterns, pi.appName = a ∧
          ∃ s ∈ pd.inlineScripts, (pi.pattern s).isSome) ∧
    (∀ (k : KitsuneM) (pd : PageData) (d : DMap) (a : String),
        a ∈ mapKeys (matchHTML k pd d) →
        a ∈ mapKeys d ∨ ∃ pi ∈ k.matcher.htmlPatterns, pi.appName = a ∧
          (pi.pattern pd.visibleText).isSome) ∧
    (∀ (k : KitsuneM) (doc : List HNode) (fc : String → Nat) (d : DMap)
        (app : String) (lit : List Char),
        app ∉ mapKeys d →
        (∀ pi ∈ k.matcher.scriptPatterns, pi.appName = app →
          ∀ s : String, (pi.pattern s).isSome → occursB lit s.data = true) →
        (∀ s ∈ inlineScriptsOf doc, occursB lit s.data = false) →
        app ∉ mapKeys (matchScript k (collectDataFromDOM doc fc) d)) ∧
    (∀ (k : KitsuneM) (doc : List HNode) (fc : String → Nat) (d : DMap)
        (app : String) (lit : List Char),
        app ∉ mapKeys d →
        (∀ pi ∈ k.matcher.htmlPatterns, pi.appName = app →
          ∀ s : String, (pi.pattern s).isSome → occursB lit s.data = true) →
        occursB lit (visibleTextOf doc).data = false →
        app ∉ mapKeys (matchHTML k (collectDataFromDOM doc fc) d)) ∧
    (∀ doc : List HNode, scriptStyleBodyFree doc = true →
        visibleTextOf (clearTags ["script", "style"] doc) = visibleTextOf doc) := by
  refine ⟨?_, ?_, ?_, ?_, ?_, ?_, ?_, ?_⟩
  · exact collectDataFromDOM_removeComments
  · intro doc fc
    exact ⟨rfl, rfl⟩
  · intro doc s
    exact ⟨isInlineScriptText_of_mem_inlineScriptsOf doc s,
      mem_inlineScriptsOf_of_isInlineScriptText doc s⟩
  · exact fun k pd d a => matchScript_mem_keys k pd d a
  · exact fun k pd d a => matchHTML_mem_keys k pd d a
  · intro k doc fc d app lit hnot hpat hdoc hmem
    rcases matchScript_mem_keys k (collectDataFromDOM doc fc) d app hmem with h | h
    · exact hnot h
    · obtain ⟨pi, hpi, hname, s, hsmem, hsome⟩ := h
      have htrue := hpat pi hpi hname s hsome
      have hfalse := hdoc s hsmem
      rw [htrue] at hfalse
      cases hfalse
  · intro k doc fc d app lit hnot hpat hdoc hmem
    rcases matchHTML_mem_keys k (collectDataFromDOM doc fc) d app hmem with h | h
    · exact hnot h
    · obtain ⟨pi, hpi, hname, hsome⟩ := h
      have htrue : occursB lit (visibleTextOf doc).data = true :=
        hpat pi hpi hname (collectDataFromDOM doc fc).visibleText hsome
      rw [htrue] at hdoc
      cases hdoc
  · exact visibleTextOf_clearTags

/-- Witness for C4: the literal "token" appears in the document only inside a
comment and in visible body text, never inside an inline script, so a script
pattern that requires the literal detects nothing. -/
theorem context_isolation_witness :
    "T" ∉ mapKeys (matchScript
      { matcher := { scriptPatterns := [{
          pattern := fun s => if occursB "token".data s.data then some [s] else none,
          patternStr := "(?i)token", appName := "T", commands := [] }] },
        jsExtract := fun _ => [] }
      (collectDataFromDOM
        [HNode.element "body" []
          [HNode.text "bodytext", HNode.comment "token here",
           HNode.element "script" [] [HNode.text "other"]]]
        (fun _ => 0)) []) := by
  apply context_isolation.2.2.2.2.2.1
    { matcher := { scriptPatterns := [{
        pattern := fun s => if occursB "token".data s.data then some [s] else none,
        patternStr := "(?i)token", appName := "T", commands := [] }] },
      jsExtract := fun _ => [] }
    [HNode.element "body" []
      [HNode.text "bodytext", HNode.comment "token here",
       HNode.element "script" [] [HNode.text "other"]]]
    (fun _ => 0) [] "T" "token".data
  · decide
  · intro pi hpi hname s hs
    simp only [List.mem_singleton] at hpi
    subst hpi
    by_cases h : occursB "token".data s.data = true
    · exact h
    · simp only [Bool.not_eq_true] at h
      simp [h] at hs
  · intro s hs
    simp only [inlineScriptsOf, textContentList, attrOf, mapLookup] at hs
    simp at hs
    subst hs
    decide

/-! ## Version-template evaluation lemmas -/

theorem isPrefixOf_self (l : List Char) : l.isPrefixOf l = true := by
  induction l with
  | nil => rfl
  | cons c rest ih => simp [List.isPrefixOf, ih]

theorem replaceAll_of_not_occurs (pat repl : List Char) :
    ∀ s : List Char, occursB pat s = false → replaceAll pat repl s = s := by
  intro s
  induction s with
  | nil => intro h; rfl
  | cons c rest ih =>
    intro h
    simp only [occursB, Bool.or_eq_false_iff] at h
    unfold replaceAll replaceAllAux
    rw [if_neg (by simp [h.1])]
    have := ih h.2
    unfold replaceAll at this
    rw [this]

theorem replaceAllAux_consume (pat repl : List Char) :
    ∀ t : List Char, replaceAllAux pat repl t t.length = [] := by
  intro t
  induction t with
  | nil => rfl
  | cons c rest ih => simp only [List.length_cons, replaceAllAux, ih]

theorem replaceAll_self (pat repl : List Char) (h : pat ≠ []) :
    replaceAll pat repl pat = repl := by
  match pat with
  | c :: tail =>
    unfold replaceAll replaceAllAux
    rw [if_pos ⟨h, isPrefixOf_self (c :: tail)⟩]
    simp only [List.length_cons, Nat.add_sub_cancel]
    rw [replaceAllAux_consume, List.append_nil]

theorem mem_backslash_of_occursB (xs : List Char) :
    ∀ t : List Char, occursB ('\\' :: xs) t = true → '\\' ∈ t := by
  intro t
  induction t with
  | nil => intro h; simp [occursB] at h
  | cons c rest ih =>
    intro h
    simp only [occursB, Bool.or_eq_true] at h
    rcases h with h | h
    · simp only [List.isPrefixOf, Bool.and_eq_true, beq_iff_eq] at h
      rw [← h.1]
      exact List.mem_cons_self _ _
    · exact List.mem_cons_of_mem c (ih h)

theorem occursB_placeholder_eq_false_of_not_mem (n : Nat) (t : List Char)
    (h : '\\' ∉ t) : occursB (placeholderOf n) t = false := by
  unfold placeholderOf
  cases hb : occursB ('\\' :: Nat.toDigits 10 n) t with
  | false => rfl
  | true => exact absurd (mem_backslash_of_occursB _ t hb) h

theorem placeholder_not_occurs_of_ne :
    ∀ a < 10, ∀ b < 10, 1 ≤ a → 1 ≤ b → a ≠ b →
      occursB (placeholderOf a) (placeholderOf b) = false := by
  decide

theorem placeholder_not_occurs_zero :
    ∀ a < 10, 1 ≤ a → occursB (placeholderOf a) ['\\', '0'] = false := by
  decide

theorem substFold_no_occurs :
    ∀ (caps : List (List Char)) (n : Nat) (t : List Char),
      (∀ i, i < caps.length → occursB (placeholderOf (n + i + 1)) t = false) →
      (caps.enumFrom n).foldl substStep t = t := by
  intro caps
  induction caps with
  | nil => intro n t _; rfl
  | cons m rest ih =>
    intro n t h
    simp only [List.enumFrom_cons, List.foldl_cons]
    have h0 : substStep t (n, m) = t := by
      unfold substStep
      exact replaceAll_of_not_occurs _ m t
        (by simpa using h 0 (by simp))
    rw [h0]
    apply ih (n + 1) t
    intro i hi
    have := h (i + 1) (by simpa using Nat.succ_lt_succ hi)
    rw [show n + (i + 1) + 1 = n + 1 + i + 1 by omega] at this
    exact this

theorem substPlaceholders_nil_template (caps : List (List Char)) :
    substPlaceholders caps [] = [] := by
  unfold substPlaceholders
  rw [show caps.enum = caps.enumFrom 0 from rfl]
  apply substFold_no_occurs
  intro i _
  exact occursB_placeholder_eq_false_of_not_mem _ [] (by simp)

theorem substPlaceholders_zero_index (caps : List (List Char))
    (h : caps.length ≤ 9) :
    substPlaceholders caps ['\\', '0'] = ['\\', '0'] := by
  unfold substPlaceholders
  rw [show caps.enum = caps.enumFrom 0 from rfl]
  apply substFold_no_occurs
  intro i hi
  exact placeholder_not_occurs_zero (0 + i + 1) (by omega) (by omega)

theorem substPlaceholders_single (caps : List (List Char)) (N : Nat)
    (h1 : 1 ≤ N) (h2 : N ≤ caps.length) (h9 : caps.length ≤ 9)
    (hbs : ∀ cp ∈ caps, '\\' ∉ cp) :
    substPlaceholders caps (placeholderOf N) = caps.getD (N - 1) [] := by
  have hlt : N - 1 < caps.length := by omega
  have hdrop : caps.drop (N - 1) = caps.getD (N - 1) [] :: caps.drop N := by
    rw [List.getD_eq_getElem caps [] hlt]
    rw [List.drop_eq_getElem_cons hlt]
    rw [show N - 1 + 1 = N by omega]
  have hsplit : caps = caps.take (N - 1) ++ caps.getD (N - 1) [] :: caps.drop N := by
    conv_lhs => rw [← List.take_append_drop (N - 1) caps]
    rw [hdrop]
  unfold substPlaceholders
  rw [show caps.enum = caps.enumFrom 0 from rfl]
  conv_lhs => rw [hsplit]
  rw [List.enumFrom_append, List.foldl_append]
  have hlen : (caps.take (N - 1)).length = N - 1 := by
    rw [List.length_take]
    omega
  have hstep1 : (List.enumFrom 0 (caps.take (N - 1))).foldl substStep (placeholderOf N) =
      placeholderOf N := by
    apply substFold_no_occurs
    intro i hi
    rw [List.length_take] at hi
    exact placeholder_not_occurs_of_ne (0 + i + 1) (by omega) N (by omega)
      (by omega) (by omega) (by omega)
  rw [hstep1, hlen, List.enumFrom_cons, List.foldl_cons]
  simp only [Nat.zero_add]
  have hstep2 : substStep (placeholderOf N) (N - 1, caps.getD (N - 1) []) =
      caps.getD (N - 1) [] := by
    unfold substStep
    rw [show N - 1 + 1 = N by omega]
    exact replaceAll_self _ _ (by simp [placeholderOf])
  rw [hstep2]
  apply substFold_no_occurs
  intro i _
  apply occursB_placeholder_eq_false_of_not_mem
  have hm : caps.getD (N - 1) [] ∈ caps := by
    rw [List.getD_eq_getElem caps [] hlt]
    exact List.getElem_mem hlt
  exact hbs _ hm

theorem goSplit_not_mem (sep : Char) :
    ∀ l : List Char, sep ∉ l → goSplit sep l = [l] := by
  intro l
  induction l with
  | nil => intro _; rfl
  | cons c rest ih =>
    intro h
    have hc : ¬ c = sep := by
      intro he
      exact h (he ▸ List.mem_cons_self c rest)
    have hrest : sep ∉ rest := fun hm => h (List.mem_cons_of_mem c hm)
    simp only [goSplit, if_neg hc, ih hrest]

theorem goSplit_append (sep : Char) :
    ∀ (xs ys : List Char), sep ∉ xs →
      goSplit sep (xs ++ sep :: ys) = xs :: goSplit sep ys := by
  intro xs
  induction xs with
  | nil =>
    intro ys _
    simp [goSplit]
  | cons x rest ih =>
    intro ys h
    have hx : ¬ x = sep := by
      intro he
      exact h (he ▸ List.mem_cons_self x rest)
    have hrest : sep ∉ rest := fun hm => h (List.mem_cons_of_mem x hm)
    simp only [List.cons_append, goSplit, if_neg hx]
    rw [show goSplit sep (rest.append (sep :: ys)) = rest :: goSplit sep ys from
      ih ys hrest]

/-- Counterexample to C5 as stated: for the template "?:fallback" the
condition (before the `?`) is empty and a capture is present, so the claim
prescribes selecting the a-part, which is the empty string; the code branches
on the emptiness of the a-part instead and returns the b-part "fallback". -/
theorem version_ternary_counterexample :
    pExtractVersion "?:fallback".data ["full".data, "cap".data] =
      some "fallback".data ∧
    "fallback".data ≠ ([] : List Char) := by
  exact ⟨by decide, by decide⟩

/-- C5 (amended).  Version-template evaluation: a missing version command
yields the empty string (kitsune extractVersion); an empty template and an
empty submatch list yield the empty version; for a single-`?` template
`cond?a:b` (with `a`, `b` free of `?` and `:`), a non-empty a-part is selected
when there are captures and the b-part otherwise, an empty a-part selects the
b-part when it is non-empty and the empty string otherwise — the condition is
never consulted; a template whose `?`-split does not have exactly two parts
is an error (empty version); the placeholder `\0` (index 0, the full match)
is never substituted; a template consisting of the single placeholder `\N`
(1 ≤ N ≤ 9, within the captures) is replaced by the N-th capture; and the
result of a successful evaluation is whitespace-trimmed. -/
theorem version_template_evaluation :
    (∀ (commands : List (String × String)) (subs : List String),
        mapLookup commands "version" = none → kExtractVersion commands subs = "") ∧
    (∀ subs : List (List Char), pExtractVersion [] subs = some []) ∧
    (∀ v : List Char, pExtractVersion v [] = some []) ∧
    (∀ (cond a b : List Char) (caps : List (List Char)),
        '?' ∉ cond → '?' ∉ a → '?' ∉ b → ':' ∉ a → ':' ∉ b →
        evaluateVersionExpression (cond ++ '?' :: (a ++ ':' :: b)) caps =
          (if a ≠ [] then (if caps.isEmpty then some b else some a)
           else if b = [] then (if caps.isEmpty then some [] else some a)
           else some b)) ∧
    (∀ (expr : List Char) (subs : List (List Char)),
        '?' ∈ expr → (goSplit '?' expr).length ≠ 2 →
        evaluateVersionExpression expr subs = none) ∧
    (∀ caps : List (List Char), caps.length ≤ 9 →
        substPlaceholders caps ['\\', '0'] = ['\\', '0']) ∧
    (∀ (caps : List (List Char)) (N : Nat),
        1 ≤ N → N ≤ caps.length → caps.length ≤ 9 →
        (∀ cp ∈ caps, '\\' ∉ cp) →
        substPlaceholders caps (placeholderOf N) = caps.getD (N - 1) []) ∧
    (∀ (v : List Char) (subs : List (List Char)), subs ≠ [] →
        pExtractVersion v subs =
          (evaluateVersionExpression (substPlaceholders subs.tail v)
            subs.tail).map trimSpace) := by
  refine ⟨?_, ?_, ?_, ?_, ?_, ?_, ?_, ?_⟩
  · intro commands subs h
    unfold kExtractVersion
    rw [h]
  · intro subs
    unfold pExtractVersion
    by_cases h : subs.isEmpty
    · rw [if_pos h]
    · rw [if_neg h, substPlaceholders_nil_template]
      have : evaluateVersionExpression [] subs.tail = some [] := by
        unfold evaluateVersionExpression
        rw [if_neg (by simp)]
      rw [this]
      rfl
  · intro v
    unfold pExtractVersion
    simp
  · intro cond a b caps hc ha hb ha2 hb2
    unfold evaluateVersionExpression
    have hmem : '?' ∈ cond ++ '?' :: (a ++ ':' :: b) := by
      simp
    rw [if_pos hmem]
    have hnotin : '?' ∉ a ++ ':' :: b := by
      intro hm
      rcases List.mem_append.mp hm with h | h
      · exact ha h
      · rcases List.mem_cons.mp h with h | h
        · cases h
        · exact hb h
    have h1 : goSplit '?' (cond ++ '?' :: (a ++ ':' :: b)) = [cond, a ++ ':' :: b] := by
      rw [goSplit_append '?' cond (a ++ ':' :: b) hc]
      rw [goSplit_not_mem '?' (a ++ ':' :: b) hnotin]
    have h2 : goSplit ':' (a ++ ':' :: b) = [a, b] := by
      rw [goSplit_append ':' a b ha2, goSplit_not_mem ':' b hb2]
    simp only [h1, h2]
  · intro expr subs hmem hlen
    unfold evaluateVersionExpression
    rw [if_pos hmem]
    match hg : goSplit '?' expr with
    | [] => rfl
    | [p] => rfl
    | [p, q] => rw [hg] at hlen; simp at hlen
    | p :: q :: r :: rest => rfl
  · exact substPlaceholders_zero_index
  · exact substPlaceholders_single
  · intro v subs h
    unfold pExtractVersion
    rw [if_neg (by simpa using h)]
    cases he : evaluateVersionExpression (substPlaceholders subs.tail v) subs.tail with
    | none => rfl
    | some r => rfl

/-- Witness for the amended C5 at concrete inputs. -/
theorem version_template_evaluation_witness :
    evaluateVersionExpression ("v".data ++ '?' :: ("yes".data ++ ':' :: "no".data))
        ["x".data] = some "yes".data ∧
    substPlaceholders ["5.8.1".data] (placeholderOf 1) = "5.8.1".data ∧
    substPlaceholders ["x".data] ['\\', '0'] = ['\\', '0'] ∧
    kExtractVersion [] ["full"] = "" ∧
    pExtractVersion "abc".data [] = some [] := by
  refine ⟨?_, ?_, ?_, ?_, ?_⟩
  · rw [version_template_evaluation.2.2.2.1 "v".data "yes".data "no".data
      ["x".data] (by decide) (by decide) (by decide) (by decide) (by decide)]
    decide
  · rw [version_template_evaluation.2.2.2.2.2.2.1 ["5.8.1".data] 1
      (by decide) (by decide) (by decide) (by decide)]
    rfl
  · exact version_template_evaluation.2.2.2.2.2.1 ["x".data] (by decide)
  · exact version_template_evaluation.1 [] ["full"] (by decide)
  · exact version_template_evaluation.2.2.1 "abc".data

/-! ## Normalizer theorems: capture unwrapping and quality gates -/

theorem denylist_lower_fixed : ∀ t ∈ patternDenylist, lowerStr t = t := by
  decide

theorem transformL_length : ∀ l : List Ast, (transformL l).length = l.length
  | [] => by simp [transformL]
  | .leaf op p :: rest => by
    simp [transformL, transformL_length rest]
  | .capture cap cname sub :: rest => by
    simp only [transformL, List.length_cons, transformL_length rest]
  | .node op sub :: rest => by
    simp [transformL, transformL_length rest]

theorem hasCaptureL_cons (a : Ast) (l : List Ast) :
    hasCaptureL (a :: l) = (hasCaptureL [a] || hasCaptureL l) := by
  cases a <;> simp [hasCaptureL, Bool.or_assoc]

theorem hasCaptureL_transformL : ∀ l : List Ast,
    capNonemptyL l = true → hasCaptureL (transformL l) = false
  | [] => by
    intro h
    simp [transformL, hasCaptureL]
  | .leaf op p :: rest => by
    intro h
    simp only [capNonemptyL] at h
    simp only [transformL, hasCaptureL]
    exact hasCaptureL_transformL rest h
  | .capture cap cname sub :: rest => by
    intro h
    simp only [capNonemptyL, Bool.and_eq_true] at h
    obtain ⟨⟨hne, hsub⟩, hrest⟩ := h
    have hsubf := hasCaptureL_transformL sub hsub
    have hrestf := hasCaptureL_transformL rest hrest
    have hlen := transformL_length sub
    simp only [transformL]
    cases hm : transformL sub with
    | nil =>
      rw [hm] at hlen
      cases sub with
      | nil => simp at hne
      | cons a b => simp at hlen
    | cons s ss =>
      rw [hm] at hsubf
      show hasCaptureL (s :: transformL rest) = false
      rw [hasCaptureL_cons s (transformL rest)]
      rw [hasCaptureL_cons s ss] at hsubf
      simp only [Bool.or_eq_false_iff] at hsubf ⊢
      exact ⟨hsubf.1, hrestf⟩
  | .node op sub :: rest => by
    intro h
    simp only [capNonemptyL, Bool.and_eq_true] at h
    simp only [transformL, hasCaptureL]
    rw [hasCaptureL_transformL sub h.1, hasCaptureL_transformL rest h.2]
    rfl

theorem hasCapture_transform (t : Ast) (h : capNonempty t = true) :
    hasCapture (transform t) = false := by
  have hlen := transformL_length [t]
  have hL := hasCaptureL_transformL [t] h
  match hm : transformL [t] with
  | [] =>
    rw [hm] at hlen
    simp at hlen
  | [s] =>
    rw [hm] at hL
    unfold transform
    rw [hm]
    exact hL
  | a :: b :: r =>
    rw [hm] at hlen
    simp at hlen

/-- On a non-empty raw pattern the DSL parser always succeeds. -/
theorem parseWappalyzerDSL_some (raw : String) (h : raw ≠ "") :
    ∃ p, parseWappalyzerDSL raw = some p := by
  unfold parseWappalyzerDSL
  rw [if_neg h]
  exact ⟨_, rfl⟩

/-- Everything the accept path of normalizePatternValue guarantees: the
emitted regex is the cleaned trimmed regex and every gate was passed. -/
theorem normalize_accept_inv (parse : String → Option Ast)
    (serial : Ast → String) (compiles : String → Bool) (raw rx : String)
    (commands : List (String × String))
    (hacc : normalizePatternValue parse serial compiles raw = some (rx, commands)) :
    rx = cleanedTrimmedOf parse serial raw ∧
    lowerStr rx ∉ patternDenylist ∧
    ¬(rx = "" ∨ rx = ".*" ∨ rx = ".") ∧
    ¬(alnumCount rx < minPatternLength) ∧
    compiles rx = true ∧ raw ≠ "" := by
  by_cases hraw : raw = ""
  · exfalso
    unfold normalizePatternValue at hacc
    rw [if_pos hraw] at hacc
    exact Option.noConfusion hacc
  · obtain ⟨⟨rx0, cmds0⟩, hdsl⟩ := parseWappalyzerDSL_some raw hraw
    have hct : cleanedTrimmedOf parse serial raw =
        trimStr (cleanWappalyzerPatternAST parse serial rx0) := by
      unfold cleanedTrimmedOf
      rw [hdsl]
    unfold normalizePatternValue at hacc
    rw [if_neg hraw] at hacc
    simp only [hdsl] at hacc
    by_cases h1 : lowerStr (trimStr (cleanWappalyzerPatternAST parse serial rx0)) ∈
        patternDenylist
    · rw [if_pos h1] at hacc
      exact Option.noConfusion hacc
    · rw [if_neg h1] at hacc
      by_cases hT : trimStr (cleanWappalyzerPatternAST parse serial rx0) = "" ∨
          trimStr (cleanWappalyzerPatternAST parse serial rx0) = ".*" ∨
          trimStr (cleanWappalyzerPatternAST parse serial rx0) = "."
      · rw [if_pos hT] at hacc
        exact Option.noConfusion hacc
      · rw [if_neg hT] at hacc
        by_cases hA : alnumCount (trimStr (cleanWappalyzerPatternAST parse serial rx0)) <
            minPatternLength
        · rw [if_pos hA] at hacc
          exact Option.noConfusion hacc
        · rw [if_neg hA] at hacc
          by_cases hC : compiles (trimStr (cleanWappalyzerPatternAST parse serial rx0)) = true
          · rw [if_pos hC] at hacc
            injection hacc with hpair
            rw [Prod.mk.injEq] at hpair
            obtain ⟨hTCrx, hcmds⟩ := hpair
            refine ⟨by rw [← hTCrx, hct], ?_, ?_, ?_, ?_, hraw⟩
            · rw [← hTCrx]
              exact h1
            · rw [← hTCrx]
              exact hT
            · rw [← hTCrx]
              exact hA
            · rw [← hTCrx]
              exact hC
          · rw [if_neg hC] at hacc
            exact Option.noConfusion hacc

/-- C7.  Normalizer quality gates: the pattern is rejected whenever its
cleaned, trimmed regex is one of the denylist tokens, or lower-cases into
one, or is empty, ".*" or ".", or has fewer than 4 alphanumeric characters;
every accepted pattern is exactly the cleaned trimmed regex and violates
none of these conditions, and its regex compiles. -/
theorem normalizer_quality_gates (parse : String → Option Ast)
    (serial : Ast → String) (compiles : String → Bool) (raw : String) :
    ((lowerStr (cleanedTrimmedOf parse serial raw) ∈ patternDenylist ∨
      cleanedTrimmedOf parse serial raw = "" ∨
      cleanedTrimmedOf parse serial raw = ".*" ∨
      cleanedTrimmedOf parse serial raw = "." ∨
      alnumCount (cleanedTrimmedOf parse serial raw) < minPatternLength) →
      normalizePatternValue parse serial compiles raw = none) ∧
    (cleanedTrimmedOf parse serial raw ∈ patternDenylist →
      normalizePatternValue parse serial compiles raw = none) ∧
    (∀ rx commands,
      normalizePatternValue parse serial compiles raw = some (rx, commands) →
      rx = cleanedTrimmedOf parse serial raw ∧
      rx ∉ patternDenylist ∧
      lowerStr rx ∉ patternDenylist ∧
      rx ≠ "" ∧ rx ≠ ".*" ∧ rx ≠ "." ∧
      minPatternLength ≤ alnumCount rx ∧
      compiles rx = true) := by
  refine ⟨?_, ?_, ?_⟩
  · intro hrej
    cases hno : normalizePatternValue parse serial compiles raw with
    | none => rfl
    | some p =>
      exfalso
      obtain ⟨h2, h3, h4, h5, _, _⟩ :=
        normalize_accept_inv parse serial compiles raw p.1 p.2 (by rw [hno])
      rw [← h2] at hrej
      rcases hrej with hd | he | he | he | ha
      · exact h3 hd
      · exact h4 (Or.inl he)
      · exact h4 (Or.inr (Or.inl he))
      · exact h4 (Or.inr (Or.inr he))
      · exact h5 ha
  · intro hd
    cases hno : normalizePatternValue parse serial compiles raw with
    | none => rfl
    | some p =>
      exfalso
      obtain ⟨h2, h3, _, _, _, _⟩ :=
        normalize_accept_inv parse serial compiles raw p.1 p.2 (by rw [hno])
      rw [← h2] at hd
      rw [denylist_lower_fixed p.1 hd] at h3
      exact h3 hd
  · intro rx commands hacc
    obtain ⟨h2, h3, h4, h5, h6, _⟩ :=
      normalize_accept_inv parse serial compiles raw rx commands hacc
    refine ⟨h2, ?_, h3, ?_, ?_, ?_, ?_, h6⟩
    · intro hmem
      rw [denylist_lower_fixed rx hmem] at h3
      exact h3 hmem
    · exact fun he => h4 (Or.inl he)
    · exact fun he => h4 (Or.inr (Or.inl he))
    · exact fun he => h4 (Or.inr (Or.inr he))
    · omega

/-- Witness for C7: a cleaned pattern that serialises to the denylist token
"div" is rejected. -/
theorem normalizer_quality_gates_witness :
    normalizePatternValue (fun _ => some (Ast.leaf "lit" "x".data))
      (fun _ => "div") (fun _ => true) "(abcd)" = none := by
  exact (normalizer_quality_gates (fun _ => some (Ast.leaf "lit" "x".data))
    (fun _ => "div") (fun _ => true) "(abcd)").2.1 (by decide)

/-- C6.  Capture-group unwrapping: whenever the normalizer accepts a raw
pattern (under a parser whose capture nodes always carry a body), the
emitted regex is the metadata-truncated, trimmed, backreference-stripped
input parsed to an AST, capture groups unwrapped, serialised back and
trimmed; the transformed AST contains no capture node, and the emitted
regex passes the compile check. -/
theorem capture_unwrap (parse : String → Option Ast) (serial : Ast → String)
    (compiles : String → Bool) (raw rx : String)
    (commands : List (String × String))
    (hwf : ∀ s t, parse s = some t → capNonempty t = true)
    (hacc : normalizePatternValue parse serial compiles raw = some (rx, commands)) :
    ∃ t : Ast,
      parse (cleanedInputOf (dslRegexOf raw)) = some t ∧
      rx = trimStr (serial (transform t)) ∧
      hasCapture (transform t) = false ∧
      compiles rx = true := by
  obtain ⟨h2, h3, h4, h5, h6, hraw⟩ :=
    normalize_accept_inv parse serial compiles raw rx commands hacc
  obtain ⟨⟨rx0, cmds0⟩, hdsl⟩ := parseWappalyzerDSL_some raw hraw
  have hdrx : dslRegexOf raw = rx0 := by
    unfold dslRegexOf
    rw [hdsl]
  have hct : cleanedTrimmedOf parse serial raw =
      trimStr (cleanWappalyzerPatternAST parse serial rx0) := by
    unfold cleanedTrimmedOf
    rw [hdsl]
  rw [hct] at h2
  have hin : cleanedInputOf rx0 =
      String.mk (removeBackrefs (trimStr (truncMeta rx0)).data) := rfl
  simp only [cleanWappalyzerPatternAST] at h2
  by_cases ht0 : trimStr (truncMeta rx0) = ""
  · rw [if_pos ht0] at h2
    exfalso
    apply h4
    left
    rw [h2]
    decide
  · rw [if_neg ht0] at h2
    cases hp : parse (String.mk (removeBackrefs (trimStr (truncMeta rx0)).data)) with
    | none =>
      simp only [hp] at h2
      exfalso
      apply h4
      left
      rw [h2]
      decide
    | some ast =>
      simp only [hp] at h2
      refine ⟨ast, ?_, h2, ?_, h6⟩
      · rw [hdrx, hin]
        exact hp
      · exact hasCapture_transform ast (hwf _ ast hp)

/-- Witness for C6 at a concrete parser, serialiser and raw pattern. -/
theorem capture_unwrap_witness :
    hasCapture (transform
      (Ast.capture 1 "".data [Ast.leaf "OpLiteral" "abcd1".data])) = false := by
  obtain ⟨t, ht, _, hcap, _⟩ := capture_unwrap
    (fun _ => some (Ast.capture 1 "".data [Ast.leaf "OpLiteral" "abcd1".data]))
    (fun _ => "abcd1") (fun _ => true) "(abcd1)" "abcd1" []
    (by
      intro s t h
      injection h with h1
      rw [← h1]
      simp [capNonempty, capNonemptyL])
    (by decide)
  injection ht with h1
  rw [h1]
  exact hcap

end Kitsune
